import Mathlib

/-!
Shallow embedding of the `safdark/isolation` game agent
(`src/game_agent.py` and `src/scorefunctions.py`).

Modelling conventions:
* Python float scores: every score produced by the evaluation library is
  either `float('-inf')`, `float('inf')`, or a finite number obtained from
  integer counts, so scores are embedded as the three-constructor type
  `FScore` (`ninf`, `fin z`, `pinf`).  Python `<`, `<=` on these floats are
  `FScore.blt` / `FScore.ble` (no NaN arises on any reachable path).
* The game state (`isolation.Board`, an external collaborator of this
  repository) is consumed by the search engine only through
  `get_legal_moves(active_player)` and `forecast_move`; it is embedded as a
  finitely branching tree `Game` whose node carries the association list of
  legal moves of the active player and the successor state for each move.
* `self.score(game, self)` always evaluates the state for the fixed root
  player `self`, so the search engine is parameterised by a function
  `score : Game → FScore` with the root player already applied.
* `depth` is a natural number (the agent is configured with a strictly
  positive search depth, and `range(search_depth, 25)` only produces
  naturals); `depth > 0` in the source becomes the pattern `d + 1`.
* The evaluation-library functions take the board through the capability
  record `Board`, mirroring exactly the methods the Python code calls
  (`is_loser`, `is_winner`, `get_legal_moves`, `get_opponent`,
  `active_player`).
-/

namespace Iso

/-- A move is a `(row, col)` pair of integers. -/
abbrev Move := Int × Int

/-- The "no move" sentinel `(-1, -1)`. -/
def noMove : Move := (-1, -1)

/-- Embedding of Python float scores: `float('-inf')`, a finite value, or
`float('inf')`.  All finite scores produced by the evaluation library are
integers. -/
inductive FScore where
  | ninf : FScore
  | fin : Int → FScore
  | pinf : FScore
deriving DecidableEq, Repr

namespace FScore

/-- Python `<` on float scores. -/
def blt : FScore → FScore → Bool
  | ninf, ninf => false
  | ninf, _ => true
  | fin _, ninf => false
  | fin a, fin b => a < b
  | fin _, pinf => true
  | pinf, _ => false

/-- Python `<=` on float scores. -/
def ble : FScore → FScore → Bool
  | ninf, _ => true
  | fin _, ninf => false
  | fin a, fin b => a ≤ b
  | fin _, pinf => true
  | pinf, pinf => true
  | pinf, _ => false

/-- Python float `+` restricted to the values reachable in this code base.
Both addends always carry the same `winlose_score` base, so the mixed case
`inf + (-inf)` (Python NaN) is unreachable; it is mapped to `fin 0`. -/
def add : FScore → FScore → FScore
  | ninf, pinf => fin 0
  | pinf, ninf => fin 0
  | ninf, _ => ninf
  | _, ninf => ninf
  | pinf, _ => pinf
  | _, pinf => pinf
  | fin a, fin b => fin (a + b)

/-- Binary maximum with respect to `blt`. -/
def fmax (a b : FScore) : FScore := if blt a b then b else a

/-- Binary minimum with respect to `blt`. -/
def fmin (a b : FScore) : FScore := if blt b a then b else a

end FScore

open FScore

/-- `newscore > score` comparison of the maximizing arm. -/
def bmax (n s : FScore) : Bool := blt s n

/-- `newscore < score` comparison of the minimizing arm. -/
def bmin (n s : FScore) : Bool := blt n s

/-- The game state as consumed by the search engine: the association list of
the active player's legal moves (in enumeration order) together with the
state produced by `forecast_move` for each of them. -/
inductive Game where
  | node : List (Move × Game) → Game

/-- `game.get_legal_moves(game.active_player)` paired with the successors. -/
def Game.children : Game → List (Move × Game)
  | node cs => cs

/-- The active player's legal moves in enumeration order. -/
def Game.legalMoves (g : Game) : List Move := g.children.map Prod.fst

/-- One step of the best-(score, move) tracking loop shared by both plies:
`if score is None or better(newscore, score): score, move = newscore, m`. -/
def mmStep (better : FScore → FScore → Bool) (acc : Option (FScore × Move))
    (x : FScore × Move) : Option (FScore × Move) :=
  match acc with
  | none => some x
  | some sm => if better x.1 sm.1 then some x else some sm

/-- The move loop of `CustomPlayer.minimax`: evaluate each child with `rec`
and keep the best `(score, move)` pair under the strict comparison
`better`. -/
def mmLoop (rec : Game → FScore) (better : FScore → FScore → Bool) :
    List (Move × Game) → Option (FScore × Move) → Option (FScore × Move)
  | [], acc => acc
  | (m, g') :: rest, acc => mmLoop rec better rest (mmStep better acc (rec g', m))

/-- `CustomPlayer.minimax` (pure part; the deadline check is modelled by
`minimaxT` below).  Arguments: evaluation (root player pre-applied), depth,
game, maximizing flag.  The source tests the legal-move list first and the
depth second; the two tests are commuted here so that the recursion is
structural on the depth, which does not change any branch's result. -/
def minimax (score : Game → FScore) : Nat → Game → Bool → FScore × Option Move
  | 0, g, _ =>
    match g.children with
    | [] => (score g, some noMove)
    | _ :: _ => (score g, none)
  | d + 1, g, maximizing =>
    match g.children with
    | [] => (score g, some noMove)
    | c :: cs =>
      let acc :=
        if maximizing then
          mmLoop (fun g' => (minimax score d g' false).1) bmax (c :: cs) none
        else
          mmLoop (fun g' => (minimax score d g' true).1) bmin (c :: cs) none
      match acc with
      | some sm => (sm.1, some sm.2)
      -- Unreachable: `mmLoop` over a nonempty list never returns `none`.
      | none => (score g, none)

/-- Maximizing move loop of `CustomPlayer.alphabeta`: track the best pair,
raise `floor` to the best score, and break once the best score reaches
`ceiling`. -/
def abMaxLoop (rec : Game → FScore → FScore → FScore) :
    List (Move × Game) → Option (FScore × Move) → FScore → FScore →
      Option (FScore × Move)
  | [], acc, _, _ => acc
  | (m, g') :: rest, acc, floor, ceiling =>
    let ns := rec g' floor ceiling
    let acc' : FScore × Move :=
      match acc with
      | none => (ns, m)
      | some sm => if bmax ns sm.1 then (ns, m) else sm
    let floor' := if blt floor acc'.1 then acc'.1 else floor
    if ble ceiling acc'.1 then some acc'
    else abMaxLoop rec rest (some acc') floor' ceiling

/-- Minimizing move loop of `CustomPlayer.alphabeta`: track the best pair,
lower `ceiling` to the best score, and break once the best score drops to
`floor`. -/
def abMinLoop (rec : Game → FScore → FScore → FScore) :
    List (Move × Game) → Option (FScore × Move) → FScore → FScore →
      Option (FScore × Move)
  | [], acc, _, _ => acc
  | (m, g') :: rest, acc, floor, ceiling =>
    let ns := rec g' floor ceiling
    let acc' : FScore × Move :=
      match acc with
      | none => (ns, m)
      | some sm => if bmin ns sm.1 then (ns, m) else sm
    let ceiling' := if blt acc'.1 ceiling then acc'.1 else ceiling
    if ble acc'.1 floor then some acc'
    else abMinLoop rec rest (some acc') floor ceiling'

/-- `CustomPlayer.alphabeta` (pure part).  Arguments: evaluation, depth,
game, alpha (`floor`), beta (`ceiling`), maximizing flag.  As in `minimax`
the legal-move and depth tests are commuted to make the recursion
structural on the depth. -/
def alphabeta (score : Game → FScore) :
    Nat → Game → FScore → FScore → Bool → FScore × Option Move
  | 0, g, _, _, _ =>
    match g.children with
    | [] => (score g, some noMove)
    | _ :: _ => (score g, none)
  | d + 1, g, alpha, beta, maximizing =>
    match g.children with
    | [] => (score g, some noMove)
    | c :: cs =>
      let acc :=
        if maximizing then
          abMaxLoop (fun g' f c2 => (alphabeta score d g' f c2 false).1)
            (c :: cs) none alpha beta
        else
          abMinLoop (fun g' f c2 => (alphabeta score d g' f c2 true).1)
            (c :: cs) none alpha beta
      match acc with
      | some sm => (sm.1, some sm.2)
      -- Unreachable: the loops over a nonempty list never return `none`.
      | none => (score g, none)

/-! ### Characterisation of the minimax move loop -/

/-- Maximum of the children's recursive scores (`ninf`-based fold). -/
def supVal (rec : Game → FScore) : List (Move × Game) → FScore
  | [] => FScore.ninf
  | p :: rest => fmax (rec p.2) (supVal rec rest)

/-- Minimum of the children's recursive scores (`pinf`-based fold). -/
def infVal (rec : Game → FScore) : List (Move × Game) → FScore
  | [] => FScore.pinf
  | p :: rest => fmin (rec p.2) (infVal rec rest)

/-- Score of a child of an internal node, as recomputed from the parent's
`maximizing` flag: the recursive call flips the flag. -/
def childVal (score : Game → FScore) (d : Nat) (mx : Bool) (p : Move × Game) :
    FScore :=
  (minimax score d p.2 (!mx)).1

/-- The best (max or min, by the `maximizing` flag) of the children's
recursive minimax scores. -/
def bestChildVal (score : Game → FScore) (d : Nat) (g : Game) (mx : Bool) :
    FScore :=
  if mx then supVal (fun g' => (minimax score d g' false).1) g.children
  else infVal (fun g' => (minimax score d g' true).1) g.children

/-! ### Concrete states used by the witnesses -/

/-- A dead end: the active player has no legal moves. -/
def wleaf : Game := Game.node []

/-- A state with two legal moves, both leading to dead ends. -/
def wg1 : Game := Game.node [((0, 0), wleaf), ((0, 1), wleaf)]

/-- A concrete evaluation function: the number of legal moves. -/
def wscore : Game → FScore := fun g => fin (g.children.length)

/-- Check that the root move chosen by `alphabeta` with the full window
attains the root score: it is either absent, or the no-move sentinel, or a
legal move whose child's minimax value equals the returned score. -/
def abMoveOK (score : Game → FScore) (g : Game) (d : Nat) : Bool :=
  match (alphabeta score d g ninf pinf true).2 with
  | none => true
  | some m =>
    m == noMove ||
    g.children.any (fun p => p.1 == m &&
      ((minimax score (d - 1) p.2 false).1 ==
        (alphabeta score d g ninf pinf true).1))

/-! ### Evaluation library (`src/scorefunctions.py`)

The board is consumed only through `is_loser`, `is_winner`,
`get_legal_moves`, `get_opponent` and `active_player`, captured by the
`Board` capability record.  The auxiliary location-based heuristics
(`accessibility_score`, `proximity_score`, `gethopdistance`) are not used
by any claim and are not embedded. -/

/-- One of the two registered players. -/
inductive Player where
  | one : Player
  | two : Player
deriving DecidableEq, Repr

/-- The opponent of a player. -/
def Player.other : Player → Player
  | one => two
  | two => one

/-- Capability record for `isolation.Board` as consumed by the evaluation
library. -/
structure Board where
  active_player : Player
  is_winner : Player → Bool
  is_loser : Player → Bool
  get_legal_moves : Player → List Move

/-- `game.get_opponent(player)`. -/
def Board.get_opponent (_ : Board) (p : Player) : Player := Player.other p

/-- `null_score`. -/
def null_score (game : Board) (player : Player) : FScore :=
  if game.is_loser player then ninf
  else if game.is_winner player then pinf
  else fin 0

/-- `open_move_score`. -/
def open_move_score (game : Board) (player : Player) : FScore :=
  if game.is_loser player then ninf
  else if game.is_winner player then pinf
  else fin (game.get_legal_moves player).length

/-- `improved_score`. -/
def improved_score (game : Board) (player : Player) : FScore :=
  if game.is_loser player then ninf
  else if game.is_winner player then pinf
  else fin (((game.get_legal_moves player).length : Int) -
    ((game.get_legal_moves (game.get_opponent player)).length : Int))

/-- `more_improved_score`. -/
def more_improved_score (game : Board) (player : Player) : FScore :=
  if game.is_loser player then ninf
  else if game.is_winner player then pinf
  else
    let own_moves := game.get_legal_moves player
    let opp_moves := game.get_legal_moves (game.get_opponent player)
    if game.active_player == player then
      fin ((own_moves.length : Int) - (opp_moves.length : Int))
    else
      fin (((own_moves.filter (fun x => !(opp_moves.contains x))).length : Int)
        - (opp_moves.length : Int))

/-- `winlose_score`. -/
def winlose_score (game : Board) (player : Player) : FScore :=
  if game.is_loser player then ninf
  else if game.is_winner player then pinf
  else fin 0

/-- `mobility_score`: `winlose_score` adjusted by ±1 on a strict mobility
difference, but only when the base score is strictly between the two
infinities. -/
def mobility_score (game : Board) (player : Player) : FScore :=
  let score := winlose_score game player
  if blt ninf score && blt score pinf then
    let own_moves := (game.get_legal_moves player).length
    let opp_moves := (game.get_legal_moves (game.get_opponent player)).length
    if opp_moves < own_moves then score.add (fin 1)
    else if own_moves < opp_moves then score.add (fin (-1))
    else score
  else score

/-- `overlap_score`: `winlose_score` adjusted by ±1 when the two players'
legal-move sets overlap, the sign depending on who is the active player. -/
def overlap_score (game : Board) (player : Player) : FScore :=
  let score := winlose_score game player
  if blt ninf score && blt score pinf then
    let own_moves := game.get_legal_moves player
    let opp_moves := game.get_legal_moves (game.get_opponent player)
    let current_overlap := own_moves.filter (fun x => opp_moves.contains x)
    if player == game.active_player then
      if 0 < current_overlap.length then score.add (fin 1) else score
    else
      if 0 < current_overlap.length then score.add (fin (-1)) else score
  else score

/-- `custom_score`: `score = 0; score += mobility_score; score +=
overlap_score`. -/
def custom_score (game : Board) (player : Player) : FScore :=
  ((fin 0).add (mobility_score game player)).add (overlap_score game player)

/-- A concrete board on which `Player.one` has lost. -/
def wboardL : Board :=
  { active_player := Player.two
    is_winner := fun q => match q with | Player.one => false | Player.two => true
    is_loser := fun q => match q with | Player.one => true | Player.two => false
    get_legal_moves := fun _ => [] }

/-! ### Deadline-checked search (`Timeout` handling)

`time_left` is modelled as `clock : Nat → Int`, the value returned by the
`t`-th poll of the callable; `thr` is `TIMER_THRESHOLD`.  Every call to
`minimax`/`alphabeta` first polls the clock and raises `Timeout` (modelled
as `Except.error ()`) when `clock t < thr`; otherwise the poll counter
advances and the computation proceeds exactly as in the pure functions. -/

/-- Timed version of the minimax move loop, threading the poll counter and
propagating `Timeout`. -/
def mmLoopT (recT : Game → Nat → Except Unit (FScore × Nat))
    (better : FScore → FScore → Bool) :
    List (Move × Game) → Option (FScore × Move) → Nat →
      Except Unit (Option (FScore × Move) × Nat)
  | [], acc, t => .ok (acc, t)
  | (m, g') :: rest, acc, t =>
    match recT g' t with
    | .error e => .error e
    | .ok (ns, t') => mmLoopT recT better rest (mmStep better acc (ns, m)) t'

/-- `CustomPlayer.minimax` with the deadline check. -/
def minimaxT (score : Game → FScore) (clock : Nat → Int) (thr : Int) :
    Nat → Game → Bool → Nat → Except Unit ((FScore × Option Move) × Nat)
  | 0, g, _, t =>
    if clock t < thr then .error ()
    else
      match g.children with
      | [] => .ok ((score g, some noMove), t + 1)
      | _ :: _ => .ok ((score g, none), t + 1)
  | d + 1, g, maximizing, t =>
    if clock t < thr then .error ()
    else
      match g.children with
      | [] => .ok ((score g, some noMove), t + 1)
      | c :: cs =>
        match (if maximizing then
            mmLoopT (fun g' t' =>
              match minimaxT score clock thr d g' false t' with
              | .error e => .error e
              | .ok (r, t2) => .ok (r.1, t2)) bmax (c :: cs) none (t + 1)
          else
            mmLoopT (fun g' t' =>
              match minimaxT score clock thr d g' true t' with
              | .error e => .error e
              | .ok (r, t2) => .ok (r.1, t2)) bmin (c :: cs) none (t + 1)) with
        | .error e => .error e
        | .ok (some sm, t') => .ok ((sm.1, some sm.2), t')
        -- Unreachable: the loop over a nonempty list never yields `none`.
        | .ok (none, t') => .ok ((score g, none), t')

/-- Timed version of the maximizing alpha-beta move loop. -/
def abMaxLoopT (recT : Game → FScore → FScore → Nat → Except Unit (FScore × Nat)) :
    List (Move × Game) → Option (FScore × Move) → FScore → FScore → Nat →
      Except Unit (Option (FScore × Move) × Nat)
  | [], acc, _, _, t => .ok (acc, t)
  | (m, g') :: rest, acc, floor, ceiling, t =>
    match recT g' floor ceiling t with
    | .error e => .error e
    | .ok (ns, t') =>
      let acc' : FScore × Move :=
        match acc with
        | none => (ns, m)
        | some sm => if bmax ns sm.1 then (ns, m) else sm
      let floor' := if blt floor acc'.1 then acc'.1 else floor
      if ble ceiling acc'.1 then .ok (some acc', t')
      else abMaxLoopT recT rest (some acc') floor' ceiling t'

/-- Timed version of the minimizing alpha-beta move loop. -/
def abMinLoopT (recT : Game → FScore → FScore → Nat → Except Unit (FScore × Nat)) :
    List (Move × Game) → Option (FScore × Move) → FScore → FScore → Nat →
      Except Unit (Option (FScore × Move) × Nat)
  | [], acc, _, _, t => .ok (acc, t)
  | (m, g') :: rest, acc, floor, ceiling, t =>
    match recT g' floor ceiling t with
    | .error e => .error e
    | .ok (ns, t') =>
      let acc' : FScore × Move :=
        match acc with
        | none => (ns, m)
        | some sm => if bmin ns sm.1 then (ns, m) else sm
      let ceiling' := if blt acc'.1 ceiling then acc'.1 else ceiling
      if ble acc'.1 floor then .ok (some acc', t')
      else abMinLoopT recT rest (some acc') floor ceiling' t'

/-- `CustomPlayer.alphabeta` with the deadline check. -/
def alphabetaT (score : Game → FScore) (clock : Nat → Int) (thr : Int) :
    Nat → Game → FScore → FScore → Bool → Nat →
      Except Unit ((FScore × Option Move) × Nat)
  | 0, g, _, _, _, t =>
    if clock t < thr then .error ()
    else
      match g.children with
      | [] => .ok ((score g, some noMove), t + 1)
      | _ :: _ => .ok ((score g, none), t + 1)
  | d + 1, g, alpha, beta, maximizing, t =>
    if clock t < thr then .error ()
    else
      match g.children with
      | [] => .ok ((score g, some noMove), t + 1)
      | c :: cs =>
        match (if maximizing then
            abMaxLoopT (fun g' f c2 t' =>
              match alphabetaT score clock thr d g' f c2 false t' with
              | .error e => .error e
              | .ok (r, t2) => .ok (r.1, t2)) (c :: cs) none alpha beta (t + 1)
          else
            abMinLoopT (fun g' f c2 t' =>
              match alphabetaT score clock thr d g' f c2 true t' with
              | .error e => .error e
              | .ok (r, t2) => .ok (r.1, t2)) (c :: cs) none alpha beta
              (t + 1)) with
        | .error e => .error e
        | .ok (some sm, t') => .ok ((sm.1, some sm.2), t')
        -- Unreachable: the loop over a nonempty list never yields `none`.
        | .ok (none, t') => .ok ((score g, none), t')

/-- `CustomPlayer.dosearch` (pure): dispatch on `self.method`; `isMinimax`
is `method == 'minimax'`.  Both searches start maximizing with the default
full window. -/
def dosearch (score : Game → FScore) (isMinimax : Bool) (g : Game) (d : Nat) :
    FScore × Option Move :=
  if isMinimax then minimax score d g true else alphabeta score d g ninf pinf true

/-- `CustomPlayer.dosearch` with the deadline check. -/
def dosearchT (score : Game → FScore) (clock : Nat → Int) (thr : Int)
    (isMinimax : Bool) (g : Game) (d : Nat) (t : Nat) :
    Except Unit ((FScore × Option Move) × Nat) :=
  if isMinimax then minimaxT score clock thr d g true t
  else alphabetaT score clock thr d g ninf pinf true t

/-! ### The driver: `CustomPlayer.get_move` -/

/-- Result of the iterative-deepening loop: the final `(score, move)`
variables, the list of `(depth, score, move)` results of the depths that
completed, and the depth whose search raised `Timeout` (if any). -/
structure IterOut where
  final : Option FScore × Option Move
  trace : List (Nat × FScore × Option Move)
  aborted : Option Nat

/-- `deque(maxlen=3)` append: drop the oldest entry once full. -/
def push3 (w : List (FScore × Option Move)) (x : FScore × Option Move) :
    List (FScore × Option Move) :=
  if w.length < 3 then w ++ [x] else w.tail ++ [x]

/-- The early-stop test after a completed depth: with convergence stopping
enabled (`quiessant_search`), stop when the window holds 3 results that all
chose the current move; otherwise stop on a forced win/loss score. -/
def convStop (quiessant : Bool) (window' : List (FScore × Option Move))
    (s : FScore) (mo : Option Move) : Bool :=
  if quiessant then
    decide (3 ≤ window'.length) && window'.all (fun x => x.2 == mo)
  else s == ninf || s == pinf

/-- The iterative-deepening loop of `get_move`
(`for depth in range(self.search_depth, 25)`), threading the deque window,
the `(score, move)` variables and the poll counter; a `Timeout` raised by a
search aborts the loop, keeping the previously committed variables. -/
def iterLoopT (score : Game → FScore) (clock : Nat → Int) (thr : Int)
    (isMM quiessant : Bool) (g : Game) :
    List Nat → List (FScore × Option Move) → Option FScore × Option Move →
      Nat → IterOut
  | [], _, best, _ => ⟨best, [], none⟩
  | d :: rest, window, best, t =>
    match dosearchT score clock thr isMM g d t with
    | .error _ => ⟨best, [], some d⟩
    | .ok ((s, mo), t') =>
      if convStop quiessant (push3 window (s, mo)) s mo then
        ⟨(some s, mo), [(d, s, mo)], none⟩
      else if clock t' < thr then ⟨(some s, mo), [(d, s, mo)], none⟩
      else
        ⟨(iterLoopT score clock thr isMM quiessant g rest
            (push3 window (s, mo)) (some s, mo) (t' + 1)).final,
          (d, s, mo) ::
            (iterLoopT score clock thr isMM quiessant g rest
              (push3 window (s, mo)) (some s, mo) (t' + 1)).trace,
          (iterLoopT score clock thr isMM quiessant g rest
            (push3 window (s, mo)) (some s, mo) (t' + 1)).aborted⟩

/-- The iterative-deepening run performed by `get_move` when
`self.iterative` is true: depths `search_depth, …, 24`, an empty deque, and
the pre-seeded `(None, random-choice-or-None)` variables. -/
def gmRun (score : Game → FScore) (clock : Nat → Int) (thr : Int)
    (isMM quiessant : Bool) (search_depth : Nat) (choice : List Move → Move)
    (g : Game) : IterOut :=
  iterLoopT score clock thr isMM quiessant g
    (List.range' search_depth (25 - search_depth)) []
    (none, if 0 < g.legalMoves.length then some (choice g.legalMoves)
      else none) 0

/-- `CustomPlayer.get_move`.  The random seed `random.choice(legal_moves)`
is modelled by the `choice` parameter; the defensive `assert` statements
are runtime checks that do not affect the returned value and are not
modelled; the `except Timeout: pass` is the error-absorbing structure of
`iterLoopT` and of the fixed-depth `match`. -/
def get_move (score : Game → FScore) (clock : Nat → Int) (thr : Int)
    (isMinimax iterative quiessant : Bool) (search_depth : Nat)
    (choice : List Move → Move) (g : Game) : Option Move :=
  if iterative then
    (gmRun score clock thr isMinimax quiessant search_depth choice g).final.2
  else
    match dosearchT score clock thr isMinimax g search_depth 0 with
    | .ok (r, _) => r.2
    | .error _ =>
      if 0 < g.legalMoves.length then some (choice g.legalMoves) else none

/-- A state with a single legal move leading to a dead end. -/
def wgsingle : Game := Game.node [((0, 0), wleaf)]

theorem blt_irrefl (a : FScore) : blt a a = false := by
  cases a <;> simp [blt]

theorem ble_refl (a : FScore) : ble a a = true := by
  cases a <;> simp [ble]

theorem ble_iff_not_blt (a b : FScore) : ble a b = true ↔ blt b a = false := by
  cases a <;> cases b <;> simp [ble, blt] <;> omega

theorem blt_iff_not_ble (a b : FScore) : blt a b = true ↔ ble b a = false := by
  cases a <;> cases b <;> simp [ble, blt] <;> omega

theorem blt_asymm {a b : FScore} (h : blt a b = true) : blt b a = false := by
  cases a <;> cases b <;> simp_all [blt] <;> omega

theorem blt_trans {a b c : FScore} (h1 : blt a b = true) (h2 : blt b c = true) :
    blt a c = true := by
  cases a <;> cases b <;> cases c <;> simp_all [blt] <;> omega

theorem ble_trans {a b c : FScore} (h1 : ble a b = true) (h2 : ble b c = true) :
    ble a c = true := by
  cases a <;> cases b <;> cases c <;> simp_all [ble] <;> omega

theorem blt_of_blt_of_ble {a b c : FScore} (h1 : blt a b = true)
    (h2 : ble b c = true) : blt a c = true := by
  cases a <;> cases b <;> cases c <;> simp_all [blt, ble] <;> omega

theorem blt_of_ble_of_blt {a b c : FScore} (h1 : ble a b = true)
    (h2 : blt b c = true) : blt a c = true := by
  cases a <;> cases b <;> cases c <;> simp_all [blt, ble] <;> omega

theorem ble_of_blt {a b : FScore} (h : blt a b = true) : ble a b = true := by
  cases a <;> cases b <;> simp_all [blt, ble] <;> omega

theorem ble_antisymm {a b : FScore} (h1 : ble a b = true) (h2 : ble b a = true) :
    a = b := by
  cases a <;> cases b <;> simp_all [ble] <;> omega

theorem ble_total (a b : FScore) : ble a b = true ∨ ble b a = true := by
  cases a <;> cases b <;> simp [ble] <;> omega

theorem ble_ninf (a : FScore) : ble ninf a = true := by cases a <;> simp [ble]

theorem ble_pinf (a : FScore) : ble a pinf = true := by cases a <;> simp [ble]

theorem eq_pinf_of_ble_pinf {a : FScore} (h : ble pinf a = true) : a = pinf := by
  cases a <;> simp_all [ble]

theorem eq_ninf_of_ble_ninf {a : FScore} (h : ble a ninf = true) : a = ninf := by
  cases a <;> simp_all [ble]

theorem ble_fmax_left (a b : FScore) : ble a (fmax a b) = true := by
  unfold fmax; split
  · exact ble_of_blt (by assumption)
  · exact ble_refl a

theorem ble_fmax_right (a b : FScore) : ble b (fmax a b) = true := by
  unfold fmax; split
  · exact ble_refl b
  · exact (ble_iff_not_blt b a).2 (by simp_all)

theorem fmax_cases (a b : FScore) : fmax a b = a ∨ fmax a b = b := by
  unfold fmax; split
  · exact Or.inr rfl
  · exact Or.inl rfl

theorem fmax_ble {a b c : FScore} (h1 : ble a c = true) (h2 : ble b c = true) :
    ble (fmax a b) c = true := by
  rcases fmax_cases a b with h | h <;> rw [h] <;> assumption

theorem fmin_ble_left (a b : FScore) : ble (fmin a b) a = true := by
  unfold fmin; split
  · exact ble_of_blt (by assumption)
  · exact ble_refl a

theorem fmin_ble_right (a b : FScore) : ble (fmin a b) b = true := by
  unfold fmin; split
  · exact ble_refl b
  · exact (ble_iff_not_blt a b).2 (by simp_all)

theorem fmin_cases (a b : FScore) : fmin a b = a ∨ fmin a b = b := by
  unfold fmin; split
  · exact Or.inr rfl
  · exact Or.inl rfl

theorem ble_fmin {a b c : FScore} (h1 : ble c a = true) (h2 : ble c b = true) :
    ble c (fmin a b) = true := by
  rcases fmin_cases a b with h | h <;> rw [h] <;> assumption

theorem blt_or_eq_of_ble {a b : FScore} (h : ble a b = true) :
    blt a b = true ∨ a = b := by
  cases a <;> cases b <;> simp_all [ble, blt] <;> omega

theorem fmax_eq_left {a b : FScore} (h : blt a b = false) : fmax a b = a := by
  unfold fmax; rw [if_neg (by simp [h])]

theorem fmax_eq_right {a b : FScore} (h : blt a b = true) : fmax a b = b := by
  unfold fmax; rw [if_pos h]

theorem fmin_eq_left {a b : FScore} (h : blt b a = false) : fmin a b = a := by
  unfold fmin; rw [if_neg (by simp [h])]

theorem fmin_eq_right {a b : FScore} (h : blt b a = true) : fmin a b = b := by
  unfold fmin; rw [if_pos h]

theorem fmax_blt {a b c : FScore} (h1 : blt a c = true) (h2 : blt b c = true) :
    blt (fmax a b) c = true := by
  rcases fmax_cases a b with h | h <;> rw [h] <;> assumption

theorem fmin_blt {a b c : FScore} (h1 : blt c a = true) (h2 : blt c b = true) :
    blt c (fmin a b) = true := by
  rcases fmin_cases a b with h | h <;> rw [h] <;> assumption

theorem fmax_fmax_of_ble {a b c : FScore} (h : ble b c = true) :
    fmax (fmax a b) c = fmax a c := by
  apply ble_antisymm
  · exact fmax_ble
      (fmax_ble (ble_fmax_left a c) (ble_trans h (ble_fmax_right a c)))
      (ble_fmax_right a c)
  · exact fmax_ble
      (ble_trans (ble_fmax_left a b) (ble_fmax_left (fmax a b) c))
      (ble_fmax_right _ _)

theorem ble_fmax_cases {x a b : FScore} (h : ble x (fmax a b) = true) :
    ble x a = true ∨ ble x b = true := by
  rcases fmax_cases a b with hf | hf
  · rw [hf] at h; exact Or.inl h
  · rw [hf] at h; exact Or.inr h

theorem ble_fmin_cases {x a b : FScore} (h : ble (fmin a b) x = true) :
    ble a x = true ∨ ble b x = true := by
  rcases fmin_cases a b with hf | hf
  · rw [hf] at h; exact Or.inl h
  · rw [hf] at h; exact Or.inr h

theorem fmin_fmin_of_ble {a b c : FScore} (h : ble c b = true) :
    fmin (fmin a b) c = fmin a c := by
  apply ble_antisymm
  · exact ble_fmin
      (ble_trans (fmin_ble_left (fmin a b) c) (fmin_ble_left a b))
      (fmin_ble_right _ _)
  · exact ble_fmin
      (ble_fmin (fmin_ble_left a c) (ble_trans (fmin_ble_right a c) h))
      (fmin_ble_right a c)

theorem blt_ninf (a : FScore) : blt a ninf = false := by
  cases a <;> simp [blt]

theorem blt_pinf (a : FScore) : blt pinf a = false := by
  cases a <;> simp [blt]

theorem supVal_mem_ble (rec : Game → FScore) :
    ∀ (l : List (Move × Game)) (p : Move × Game), p ∈ l →
      ble (rec p.2) (supVal rec l) = true := by
  intro l
  induction l with
  | nil => intro p hp; cases hp
  | cons q rest ih =>
    intro p hp
    rcases List.mem_cons.1 hp with h | h
    · subst h; exact ble_fmax_left _ _
    · exact ble_trans (ih p h) (ble_fmax_right _ _)

theorem infVal_mem_ble (rec : Game → FScore) :
    ∀ (l : List (Move × Game)) (p : Move × Game), p ∈ l →
      ble (infVal rec l) (rec p.2) = true := by
  intro l
  induction l with
  | nil => intro p hp; cases hp
  | cons q rest ih =>
    intro p hp
    rcases List.mem_cons.1 hp with h | h
    · subst h; exact fmin_ble_left _ _
    · exact ble_trans (fmin_ble_right _ _) (ih p h)

theorem mmLoop_max_keep (rec : Game → FScore) :
    ∀ (l : List (Move × Game)) (s₀ : FScore) (m₀ : Move),
      blt s₀ (supVal rec l) = false →
      mmLoop rec bmax l (some (s₀, m₀)) = some (s₀, m₀) := by
  intro l
  induction l with
  | nil => intro s₀ m₀ _; rfl
  | cons q rest ih =>
    intro s₀ m₀ h
    have hv : blt s₀ (rec q.2) = false := by
      cases hb : blt s₀ (rec q.2)
      · rfl
      · exact absurd (blt_of_blt_of_ble hb (ble_fmax_left _ _)) (by simp [supVal] at h ⊢; exact h)
    have hs : blt s₀ (supVal rec rest) = false := by
      cases hb : blt s₀ (supVal rec rest)
      · rfl
      · exact absurd (blt_of_blt_of_ble hb (ble_fmax_right (rec q.2) _)) (by simp [supVal] at h ⊢; exact h)
    obtain ⟨m, g'⟩ := q
    simp only [mmLoop, mmStep, bmax]
    rw [if_neg (by simp [hv])]
    exact ih s₀ m₀ hs

theorem mmLoop_max_repl (rec : Game → FScore) :
    ∀ (l : List (Move × Game)) (s₀ : FScore) (m₀ : Move),
      blt s₀ (supVal rec l) = true →
      ∃ p, l.find? (fun q => rec q.2 == supVal rec l) = some p ∧
        mmLoop rec bmax l (some (s₀, m₀)) = some (supVal rec l, p.1) := by
  intro l
  induction l with
  | nil => intro s₀ m₀ h; rw [supVal, blt_ninf] at h; cases h
  | cons q rest ih =>
    intro s₀ m₀ h
    have hsup : supVal rec (q :: rest) = fmax (rec q.2) (supVal rec rest) := rfl
    by_cases hrepl : blt s₀ (rec q.2) = true
    · -- the head replaces the accumulator
      by_cases hvs : blt (rec q.2) (supVal rec rest) = true
      · -- the final maximum lies in the tail
        have hmaxeq : supVal rec (q :: rest) = supVal rec rest := by
          rw [hsup]; unfold fmax; rw [if_pos hvs]
        obtain ⟨p, hf, hl⟩ := ih (rec q.2) q.1 hvs
        refine ⟨p, ?_, ?_⟩
        · rw [List.find?_cons_of_neg, hmaxeq]; exact hf
          rw [hmaxeq]
          simp only [beq_iff_eq]
          intro he
          rw [he] at hvs
          rw [blt_irrefl] at hvs
          cases hvs
        · obtain ⟨m, g'⟩ := q
          simp only [mmLoop, mmStep, bmax]
          rw [if_pos (by simp [hrepl])]
          rw [hmaxeq]
          exact hl
      · -- the head attains the maximum
        have hmaxeq : supVal rec (q :: rest) = rec q.2 := by
          rw [hsup]; unfold fmax; rw [if_neg (by simp_all)]
        refine ⟨q, ?_, ?_⟩
        · apply List.find?_cons_of_pos
          show (rec q.2 == supVal rec (q :: rest)) = true
          rw [hmaxeq]; exact beq_self_eq_true _
        · obtain ⟨m, g'⟩ := q
          simp only [mmLoop, mmStep, bmax]
          rw [if_pos (by simp [hrepl])]
          rw [hmaxeq]
          exact mmLoop_max_keep rec rest _ m (by simpa using hvs)
    · -- the accumulator survives the head
      have hrepl' : blt s₀ (rec q.2) = false := by simp_all
      have hvrest : blt s₀ (supVal rec rest) = true := by
        rcases fmax_cases (rec q.2) (supVal rec rest) with hc | hc
        · rw [hsup, hc] at h; rw [h] at hrepl'; cases hrepl'
        · rw [hsup, hc] at h; exact h
      have hmaxeq : supVal rec (q :: rest) = supVal rec rest := by
        rw [hsup]; unfold fmax
        rw [if_pos (blt_of_ble_of_blt ((ble_iff_not_blt _ _).2 hrepl') hvrest)]
      obtain ⟨p, hf, hl⟩ := ih s₀ m₀ hvrest
      refine ⟨p, ?_, ?_⟩
      · rw [List.find?_cons_of_neg, hmaxeq]; exact hf
        rw [hmaxeq]
        simp only [beq_iff_eq]
        intro he
        have : blt s₀ (rec q.2) = true := by rw [he]; exact hvrest
        rw [this] at hrepl'; cases hrepl'
      · obtain ⟨m, g'⟩ := q
        simp only [mmLoop, mmStep, bmax]
        rw [if_neg (by simp [hrepl'])]
        rw [hmaxeq]
        exact hl

theorem mmLoop_max_none (rec : Game → FScore) (q : Move × Game)
    (rest : List (Move × Game)) :
    ∃ p, (q :: rest).find? (fun r => rec r.2 == supVal rec (q :: rest)) = some p ∧
      mmLoop rec bmax (q :: rest) none = some (supVal rec (q :: rest), p.1) := by
  have hsup : supVal rec (q :: rest) = fmax (rec q.2) (supVal rec rest) := rfl
  have hstep : mmLoop rec bmax (q :: rest) none =
      mmLoop rec bmax rest (some (rec q.2, q.1)) := by
    obtain ⟨m, g'⟩ := q; rfl
  by_cases hvs : blt (rec q.2) (supVal rec rest) = true
  · have hmaxeq : supVal rec (q :: rest) = supVal rec rest := by
      rw [hsup]; unfold fmax; rw [if_pos hvs]
    obtain ⟨p, hf, hl⟩ := mmLoop_max_repl rec rest (rec q.2) q.1 hvs
    refine ⟨p, ?_, ?_⟩
    · rw [List.find?_cons_of_neg, hmaxeq]; exact hf
      rw [hmaxeq]
      simp only [beq_iff_eq]
      intro he
      rw [he, blt_irrefl] at hvs; cases hvs
    · rw [hstep, hmaxeq]; exact hl
  · have hmaxeq : supVal rec (q :: rest) = rec q.2 := by
      rw [hsup]; unfold fmax; rw [if_neg (by simp_all)]
    refine ⟨q, ?_, ?_⟩
    · apply List.find?_cons_of_pos
      show (rec q.2 == supVal rec (q :: rest)) = true
      rw [hmaxeq]; exact beq_self_eq_true _
    · rw [hstep, hmaxeq]
      exact mmLoop_max_keep rec rest _ q.1 (by simpa using hvs)

theorem mmLoop_min_keep (rec : Game → FScore) :
    ∀ (l : List (Move × Game)) (s₀ : FScore) (m₀ : Move),
      blt (infVal rec l) s₀ = false →
      mmLoop rec bmin l (some (s₀, m₀)) = some (s₀, m₀) := by
  intro l
  induction l with
  | nil => intro s₀ m₀ _; rfl
  | cons q rest ih =>
    intro s₀ m₀ h
    have hv : blt (rec q.2) s₀ = false := by
      cases hb : blt (rec q.2) s₀
      · rfl
      · exact absurd (blt_of_ble_of_blt (fmin_ble_left (rec q.2) (infVal rec rest)) hb)
          (by simp [infVal] at h ⊢; exact h)
    have hs : blt (infVal rec rest) s₀ = false := by
      cases hb : blt (infVal rec rest) s₀
      · rfl
      · exact absurd (blt_of_ble_of_blt (fmin_ble_right (rec q.2) _) hb)
          (by simp [infVal] at h ⊢; exact h)
    obtain ⟨m, g'⟩ := q
    simp only [mmLoop, mmStep, bmin]
    rw [if_neg (by simp [hv])]
    exact ih s₀ m₀ hs

theorem mmLoop_min_repl (rec : Game → FScore) :
    ∀ (l : List (Move × Game)) (s₀ : FScore) (m₀ : Move),
      blt (infVal rec l) s₀ = true →
      ∃ p, l.find? (fun q => rec q.2 == infVal rec l) = some p ∧
        mmLoop rec bmin l (some (s₀, m₀)) = some (infVal rec l, p.1) := by
  intro l
  induction l with
  | nil => intro s₀ m₀ h; rw [infVal, blt_pinf] at h; cases h
  | cons q rest ih =>
    intro s₀ m₀ h
    have hinf : infVal rec (q :: rest) = fmin (rec q.2) (infVal rec rest) := rfl
    by_cases hrepl : blt (rec q.2) s₀ = true
    · by_cases hvs : blt (infVal rec rest) (rec q.2) = true
      · have hmineq : infVal rec (q :: rest) = infVal rec rest := by
          rw [hinf]; unfold fmin; rw [if_pos hvs]
        obtain ⟨p, hf, hl⟩ := ih (rec q.2) q.1 hvs
        refine ⟨p, ?_, ?_⟩
        · rw [List.find?_cons_of_neg, hmineq]; exact hf
          rw [hmineq]
          simp only [beq_iff_eq]
          intro he
          rw [he] at hvs
          rw [blt_irrefl] at hvs
          cases hvs
        · obtain ⟨m, g'⟩ := q
          simp only [mmLoop, mmStep, bmin]
          rw [if_pos (by simp [hrepl])]
          rw [hmineq]
          exact hl
      · have hmineq : infVal rec (q :: rest) = rec q.2 := by
          rw [hinf]; unfold fmin; rw [if_neg (by simp_all)]
        refine ⟨q, ?_, ?_⟩
        · apply List.find?_cons_of_pos
          show (rec q.2 == infVal rec (q :: rest)) = true
          rw [hmineq]; exact beq_self_eq_true _
        · obtain ⟨m, g'⟩ := q
          simp only [mmLoop, mmStep, bmin]
          rw [if_pos (by simp [hrepl])]
          rw [hmineq]
          exact mmLoop_min_keep rec rest _ m (by simpa using hvs)
    · have hrepl' : blt (rec q.2) s₀ = false := by simp_all
      have hvrest : blt (infVal rec rest) s₀ = true := by
        rcases fmin_cases (rec q.2) (infVal rec rest) with hc | hc
        · rw [hinf, hc] at h; rw [h] at hrepl'; cases hrepl'
        · rw [hinf, hc] at h; exact h
      have hmineq : infVal rec (q :: rest) = infVal rec rest := by
        rw [hinf]; unfold fmin
        rw [if_pos (blt_of_blt_of_ble hvrest ((ble_iff_not_blt _ _).2 hrepl'))]
      obtain ⟨p, hf, hl⟩ := ih s₀ m₀ hvrest
      refine ⟨p, ?_, ?_⟩
      · rw [List.find?_cons_of_neg, hmineq]; exact hf
        rw [hmineq]
        simp only [beq_iff_eq]
        intro he
        have : blt (rec q.2) s₀ = true := by rw [he]; exact hvrest
        rw [this] at hrepl'; cases hrepl'
      · obtain ⟨m, g'⟩ := q
        simp only [mmLoop, mmStep, bmin]
        rw [if_neg (by simp [hrepl'])]
        rw [hmineq]
        exact hl

theorem mmLoop_min_none (rec : Game → FScore) (q : Move × Game)
    (rest : List (Move × Game)) :
    ∃ p, (q :: rest).find? (fun r => rec r.2 == infVal rec (q :: rest)) = some p ∧
      mmLoop rec bmin (q :: rest) none = some (infVal rec (q :: rest), p.1) := by
  have hinf : infVal rec (q :: rest) = fmin (rec q.2) (infVal rec rest) := rfl
  have hstep : mmLoop rec bmin (q :: rest) none =
      mmLoop rec bmin rest (some (rec q.2, q.1)) := by
    obtain ⟨m, g'⟩ := q; rfl
  by_cases hvs : blt (infVal rec rest) (rec q.2) = true
  · have hmineq : infVal rec (q :: rest) = infVal rec rest := by
      rw [hinf]; unfold fmin; rw [if_pos hvs]
    obtain ⟨p, hf, hl⟩ := mmLoop_min_repl rec rest (rec q.2) q.1 hvs
    refine ⟨p, ?_, ?_⟩
    · rw [List.find?_cons_of_neg, hmineq]; exact hf
      rw [hmineq]
      simp only [beq_iff_eq]
      intro he
      rw [he, blt_irrefl] at hvs; cases hvs
    · rw [hstep, hmineq]; exact hl
  · have hmineq : infVal rec (q :: rest) = rec q.2 := by
      rw [hinf]; unfold fmin; rw [if_neg (by simp_all)]
    refine ⟨q, ?_, ?_⟩
    · apply List.find?_cons_of_pos
      show (rec q.2 == infVal rec (q :: rest)) = true
      rw [hmineq]; exact beq_self_eq_true _
    · rw [hstep, hmineq]
      exact mmLoop_min_keep rec rest _ q.1 (by simpa using hvs)

/-! ### Unfolding equations for the search functions -/
theorem minimax_succ_max (score : Game → FScore) (d : Nat) (q : Move × Game)
    (rest : List (Move × Game)) :
    minimax score (d + 1) (Game.node (q :: rest)) true =
      match mmLoop (fun g' => (minimax score d g' false).1) bmax (q :: rest) none with
      | some sm => (sm.1, some sm.2)
      | none => (score (Game.node (q :: rest)), none) := rfl

theorem minimax_succ_min (score : Game → FScore) (d : Nat) (q : Move × Game)
    (rest : List (Move × Game)) :
    minimax score (d + 1) (Game.node (q :: rest)) false =
      match mmLoop (fun g' => (minimax score d g' true).1) bmin (q :: rest) none with
      | some sm => (sm.1, some sm.2)
      | none => (score (Game.node (q :: rest)), none) := rfl

theorem alphabeta_succ_max (score : Game → FScore) (d : Nat) (q : Move × Game)
    (rest : List (Move × Game)) (alpha beta : FScore) :
    alphabeta score (d + 1) (Game.node (q :: rest)) alpha beta true =
      match abMaxLoop (fun g' f c2 => (alphabeta score d g' f c2 false).1)
          (q :: rest) none alpha beta with
      | some sm => (sm.1, some sm.2)
      | none => (score (Game.node (q :: rest)), none) := rfl

theorem alphabeta_succ_min (score : Game → FScore) (d : Nat) (q : Move × Game)
    (rest : List (Move × Game)) (alpha beta : FScore) :
    alphabeta score (d + 1) (Game.node (q :: rest)) alpha beta false =
      match abMinLoop (fun g' f c2 => (alphabeta score d g' f c2 true).1)
          (q :: rest) none alpha beta with
      | some sm => (sm.1, some sm.2)
      | none => (score (Game.node (q :: rest)), none) := rfl

theorem minimax_internal (score : Game → FScore) (d : Nat) (g : Game)
    (mx : Bool) (h : g.children ≠ []) :
    ∃ p, g.children.find?
        (fun r => childVal score d mx r == bestChildVal score d g mx) = some p ∧
      minimax score (d + 1) g mx = (bestChildVal score d g mx, some p.1) := by
  obtain ⟨cs⟩ := g
  match cs, h with
  | q :: rest, _ =>
    cases mx
    · obtain ⟨p, hf, hl⟩ :=
        mmLoop_min_none (fun g' => (minimax score d g' true).1) q rest
      exact ⟨p, hf, by rw [minimax_succ_min, hl]; rfl⟩
    · obtain ⟨p, hf, hl⟩ :=
        mmLoop_max_none (fun g' => (minimax score d g' false).1) q rest
      exact ⟨p, hf, by rw [minimax_succ_max, hl]; rfl⟩

theorem minimax_val_max (score : Game → FScore) (d : Nat) (q : Move × Game)
    (rest : List (Move × Game)) :
    (minimax score (d + 1) (Game.node (q :: rest)) true).1 =
      supVal (fun g' => (minimax score d g' false).1) (q :: rest) := by
  obtain ⟨p, hf, hl⟩ :=
    mmLoop_max_none (fun g' => (minimax score d g' false).1) q rest
  rw [minimax_succ_max, hl]

theorem minimax_val_min (score : Game → FScore) (d : Nat) (q : Move × Game)
    (rest : List (Move × Game)) :
    (minimax score (d + 1) (Game.node (q :: rest)) false).1 =
      infVal (fun g' => (minimax score d g' true).1) (q :: rest) := by
  obtain ⟨p, hf, hl⟩ :=
    mmLoop_min_none (fun g' => (minimax score d g' true).1) q rest
  rw [minimax_succ_min, hl]

/-! ### Membership of the alpha-beta loops' results -/
theorem abMaxLoop_isSome (rec : Game → FScore → FScore → FScore) :
    ∀ (l : List (Move × Game)) (sm₀ : FScore × Move) (f c : FScore),
      ∃ sm, abMaxLoop rec l (some sm₀) f c = some sm := by
  intro l
  induction l with
  | nil => intro sm₀ f c; exact ⟨sm₀, rfl⟩
  | cons q rest ih =>
    intro sm₀ f c
    obtain ⟨m, g'⟩ := q
    show ∃ sm,
      (if ble c (if bmax (rec g' f c) sm₀.1 then (rec g' f c, m) else sm₀).1 then
          some (if bmax (rec g' f c) sm₀.1 then (rec g' f c, m) else sm₀)
        else abMaxLoop rec rest
          (some (if bmax (rec g' f c) sm₀.1 then (rec g' f c, m) else sm₀))
          (if blt f (if bmax (rec g' f c) sm₀.1 then (rec g' f c, m) else sm₀).1 then
              (if bmax (rec g' f c) sm₀.1 then (rec g' f c, m) else sm₀).1
            else f) c) = some sm
    rcases hb : ble c (if bmax (rec g' f c) sm₀.1 then (rec g' f c, m) else sm₀).1 with _ | _
    · rw [if_neg (by simp)]
      exact ih _ _ _
    · rw [if_pos rfl]
      exact ⟨_, rfl⟩

theorem abMinLoop_isSome (rec : Game → FScore → FScore → FScore) :
    ∀ (l : List (Move × Game)) (sm₀ : FScore × Move) (f c : FScore),
      ∃ sm, abMinLoop rec l (some sm₀) f c = some sm := by
  intro l
  induction l with
  | nil => intro sm₀ f c; exact ⟨sm₀, rfl⟩
  | cons q rest ih =>
    intro sm₀ f c
    obtain ⟨m, g'⟩ := q
    show ∃ sm,
      (if ble (if bmin (rec g' f c) sm₀.1 then (rec g' f c, m) else sm₀).1 f then
          some (if bmin (rec g' f c) sm₀.1 then (rec g' f c, m) else sm₀)
        else abMinLoop rec rest
          (some (if bmin (rec g' f c) sm₀.1 then (rec g' f c, m) else sm₀)) f
          (if blt (if bmin (rec g' f c) sm₀.1 then (rec g' f c, m) else sm₀).1 c then
              (if bmin (rec g' f c) sm₀.1 then (rec g' f c, m) else sm₀).1
            else c)) = some sm
    rcases hb : ble (if bmin (rec g' f c) sm₀.1 then (rec g' f c, m) else sm₀).1 f with _ | _
    · rw [if_neg (by simp)]
      exact ih _ _ _
    · rw [if_pos rfl]
      exact ⟨_, rfl⟩

theorem abMaxLoop_mem (rec : Game → FScore → FScore → FScore) :
    ∀ (l : List (Move × Game)) (sm₀ : FScore × Move) (f c : FScore)
      (sm : FScore × Move), abMaxLoop rec l (some sm₀) f c = some sm →
      sm.2 = sm₀.2 ∨ ∃ g', (sm.2, g') ∈ l := by
  intro l
  induction l with
  | nil =>
    intro sm₀ f c sm h
    exact Or.inl (by cases h; rfl)
  | cons q rest ih =>
    intro sm₀ f c sm h
    obtain ⟨m, g'⟩ := q
    simp only [abMaxLoop] at h
    by_cases hb : bmax (rec g' f c) sm₀.1 = true
    · rw [if_pos hb] at h
      split at h
      · cases h
        exact Or.inr ⟨g', List.mem_cons_self _ _⟩
      · rcases ih _ _ _ _ h with h2 | ⟨g2, h2⟩
        · exact Or.inr ⟨g', by rw [h2]; exact List.mem_cons_self _ _⟩
        · exact Or.inr ⟨g2, List.mem_cons_of_mem _ h2⟩
    · rw [if_neg hb] at h
      split at h
      · cases h
        exact Or.inl rfl
      · rcases ih _ _ _ _ h with h2 | ⟨g2, h2⟩
        · exact Or.inl h2
        · exact Or.inr ⟨g2, List.mem_cons_of_mem _ h2⟩

theorem abMinLoop_mem (rec : Game → FScore → FScore → FScore) :
    ∀ (l : List (Move × Game)) (sm₀ : FScore × Move) (f c : FScore)
      (sm : FScore × Move), abMinLoop rec l (some sm₀) f c = some sm →
      sm.2 = sm₀.2 ∨ ∃ g', (sm.2, g') ∈ l := by
  intro l
  induction l with
  | nil =>
    intro sm₀ f c sm h
    exact Or.inl (by cases h; rfl)
  | cons q rest ih =>
    intro sm₀ f c sm h
    obtain ⟨m, g'⟩ := q
    simp only [abMinLoop] at h
    by_cases hb : bmin (rec g' f c) sm₀.1 = true
    · rw [if_pos hb] at h
      split at h
      · cases h
        exact Or.inr ⟨g', List.mem_cons_self _ _⟩
      · rcases ih _ _ _ _ h with h2 | ⟨g2, h2⟩
        · exact Or.inr ⟨g', by rw [h2]; exact List.mem_cons_self _ _⟩
        · exact Or.inr ⟨g2, List.mem_cons_of_mem _ h2⟩
    · rw [if_neg hb] at h
      split at h
      · cases h
        exact Or.inl rfl
      · rcases ih _ _ _ _ h with h2 | ⟨g2, h2⟩
        · exact Or.inl h2
        · exact Or.inr ⟨g2, List.mem_cons_of_mem _ h2⟩

theorem abMaxLoop_none_mem (rec : Game → FScore → FScore → FScore)
    (q : Move × Game) (rest : List (Move × Game)) (f c : FScore) :
    ∃ sm, abMaxLoop rec (q :: rest) none f c = some sm ∧
      ∃ g', (sm.2, g') ∈ q :: rest := by
  obtain ⟨m, g'⟩ := q
  simp only [abMaxLoop]
  split
  · exact ⟨_, rfl, ⟨g', List.mem_cons_self _ _⟩⟩
  · obtain ⟨sm, hsm⟩ := abMaxLoop_isSome rec rest _ _ _
    refine ⟨sm, hsm, ?_⟩
    rcases abMaxLoop_mem rec rest _ _ _ _ hsm with h2 | ⟨g2, h2⟩
    · exact ⟨g', by rw [h2]; exact List.mem_cons_self _ _⟩
    · exact ⟨g2, List.mem_cons_of_mem _ h2⟩

theorem abMinLoop_none_mem (rec : Game → FScore → FScore → FScore)
    (q : Move × Game) (rest : List (Move × Game)) (f c : FScore) :
    ∃ sm, abMinLoop rec (q :: rest) none f c = some sm ∧
      ∃ g', (sm.2, g') ∈ q :: rest := by
  obtain ⟨m, g'⟩ := q
  simp only [abMinLoop]
  split
  · exact ⟨_, rfl, ⟨g', List.mem_cons_self _ _⟩⟩
  · obtain ⟨sm, hsm⟩ := abMinLoop_isSome rec rest _ _ _
    refine ⟨sm, hsm, ?_⟩
    rcases abMinLoop_mem rec rest _ _ _ _ hsm with h2 | ⟨g2, h2⟩
    · exact ⟨g', by rw [h2]; exact List.mem_cons_self _ _⟩
    · exact ⟨g2, List.mem_cons_of_mem _ h2⟩

/-- C4: for every state with at least one legal move and every depth ≥ 1,
`minimax` returns the maximum (at a maximizing ply) or minimum (at a
minimizing ply) of the children's recursive scores, paired with the
earliest move in the state's enumeration order that attains it
(`List.find?` returns the first match, so a later child with an equal
score never replaces the current best). -/
theorem claim_C4 (score : Game → FScore) (d : Nat) (g : Game) (mx : Bool)
    (h : g.children ≠ []) :
    (∀ p ∈ g.children,
      (if mx then ble (childVal score d mx p) (bestChildVal score d g mx)
       else ble (bestChildVal score d g mx) (childVal score d mx p)) = true) ∧
    ∃ p, g.children.find?
        (fun r => childVal score d mx r == bestChildVal score d g mx) = some p ∧
      minimax score (d + 1) g mx = (bestChildVal score d g mx, some p.1) := by
  refine ⟨?_, minimax_internal score d g mx h⟩
  intro p hp
  cases mx
  · show ble (infVal (fun g' => (minimax score d g' true).1) g.children)
      ((minimax score d p.2 true).1) = true
    exact infVal_mem_ble (fun g' => (minimax score d g' true).1) g.children p hp
  · show ble ((minimax score d p.2 false).1)
      (supVal (fun g' => (minimax score d g' false).1) g.children) = true
    exact supVal_mem_ble (fun g' => (minimax score d g' false).1) g.children p hp

/-- Witness for C4 at a concrete input: both children of `wg1` score
`fin 0`, and the first one, `(0, 0)`, is chosen. -/
theorem claim_C4_witness :
    minimax wscore 1 wg1 true = (fin 0, some ((0 : Int), (0 : Int))) := by
  obtain ⟨p, hf, hl⟩ := (claim_C4 wscore 0 wg1 true (List.cons_ne_nil _ _)).2
  have hfind : wg1.children.find?
      (fun r => childVal wscore 0 true r == bestChildVal wscore 0 wg1 true) =
      some (((0 : Int), (0 : Int)), wleaf) := rfl
  rw [hf] at hfind
  cases hfind
  exact hl

/-- C5: for every state in which the active player has zero legal moves and
for every depth (including depths greater than 0), both `minimax` and
`alphabeta` return the static evaluation (root perspective) paired with the
no-move sentinel `(-1, -1)`. -/
theorem claim_C5 (score : Game → FScore) (d : Nat) (g : Game) (mx : Bool)
    (alpha beta : FScore) (h : g.children = []) :
    minimax score d g mx = (score g, some noMove) ∧
    alphabeta score d g alpha beta mx = (score g, some noMove) := by
  obtain ⟨cs⟩ := g
  have hcs : cs = [] := h
  subst hcs
  cases d
  · exact ⟨rfl, rfl⟩
  · exact ⟨rfl, rfl⟩

/-- Witness for C5 at a concrete dead end and depth 3. -/
theorem claim_C5_witness :
    minimax wscore 3 wleaf true = (fin 0, some noMove) ∧
    alphabeta wscore 3 wleaf ninf pinf true = (fin 0, some noMove) :=
  claim_C5 wscore 3 wleaf true ninf pinf rfl

/-- C6: for every state with at least one legal move, `minimax` and
`alphabeta` at depth 0 return exactly the static evaluation (the `score`
parameter carries the fixed root player's perspective through every ply)
paired with move `None`. -/
theorem claim_C6 (score : Game → FScore) (g : Game) (mx : Bool)
    (alpha beta : FScore) (h : g.children ≠ []) :
    minimax score 0 g mx = (score g, none) ∧
    alphabeta score 0 g alpha beta mx = (score g, none) := by
  obtain ⟨cs⟩ := g
  match cs, h with
  | q :: rest, _ => exact ⟨rfl, rfl⟩

/-- Witness for C6 at a concrete two-move state. -/
theorem claim_C6_witness :
    minimax wscore 0 wg1 true = (fin 2, none) ∧
    alphabeta wscore 0 wg1 ninf pinf true = (fin 2, none) :=
  claim_C6 wscore wg1 true ninf pinf (List.cons_ne_nil _ _)

/-- C10: for every state with at least one legal move and every depth ≥ 1,
the move component returned by `minimax` and by `alphabeta` (at any alpha
and beta) is `some m` for a member `m` of the state's legal-move
enumeration; in particular it is never `None`, and it is the `(-1, -1)`
sentinel only if the board lists that pair as a legal move. -/
theorem claim_C10 (score : Game → FScore) (d : Nat) (g : Game) (mx : Bool)
    (alpha beta : FScore) (h : g.children ≠ []) :
    (∃ m, (minimax score (d + 1) g mx).2 = some m ∧ m ∈ g.legalMoves) ∧
    (∃ m, (alphabeta score (d + 1) g alpha beta mx).2 = some m ∧
      m ∈ g.legalMoves) := by
  constructor
  · obtain ⟨p, hf, hl⟩ := minimax_internal score d g mx h
    refine ⟨p.1, by rw [hl], ?_⟩
    exact List.mem_map_of_mem Prod.fst (List.mem_of_find?_eq_some hf)
  · obtain ⟨cs⟩ := g
    match cs, h with
    | q :: rest, _ =>
      cases mx
      · obtain ⟨sm, hsm, g2, hg2⟩ :=
          abMinLoop_none_mem
            (fun g' f c2 => (alphabeta score d g' f c2 true).1) q rest alpha beta
        refine ⟨sm.2, by rw [alphabeta_succ_min, hsm], ?_⟩
        exact List.mem_map_of_mem Prod.fst hg2
      · obtain ⟨sm, hsm, g2, hg2⟩ :=
          abMaxLoop_none_mem
            (fun g' f c2 => (alphabeta score d g' f c2 false).1) q rest alpha beta
        refine ⟨sm.2, by rw [alphabeta_succ_max, hsm], ?_⟩
        exact List.mem_map_of_mem Prod.fst hg2

/-! ### Fail-soft correctness of the alpha-beta loops

The central lemmas for C1.  For a child searched in the window
`(floor, ceiling)`, the recursive result `r` and the true minimax value `v`
satisfy the fail-soft triple: `r ≤ floor → v ≤ r`, `ceiling ≤ r → r ≤ v`,
and `floor < r < ceiling → r = v`.  The loop lemmas propagate this triple
through the accumulator. -/
theorem abMaxLoop_cons (rec : Game → FScore → FScore → FScore) (m : Move)
    (g2 : Game) (rest : List (Move × Game)) (s₀ : FScore) (m₀ : Move)
    (f c : FScore) :
    abMaxLoop rec ((m, g2) :: rest) (some (s₀, m₀)) f c =
      if ble c (if bmax (rec g2 f c) s₀ then (rec g2 f c, m) else (s₀, m₀)).1 then
        some (if bmax (rec g2 f c) s₀ then (rec g2 f c, m) else (s₀, m₀))
      else abMaxLoop rec rest
        (some (if bmax (rec g2 f c) s₀ then (rec g2 f c, m) else (s₀, m₀)))
        (fmax f (if bmax (rec g2 f c) s₀ then (rec g2 f c, m) else (s₀, m₀)).1)
        c := rfl

theorem abMaxLoop_cons_repl (rec : Game → FScore → FScore → FScore) (m : Move)
    (g2 : Game) (rest : List (Move × Game)) (s₀ : FScore) (m₀ : Move)
    (f c : FScore) (h : bmax (rec g2 f c) s₀ = true) :
    abMaxLoop rec ((m, g2) :: rest) (some (s₀, m₀)) f c =
      if ble c (rec g2 f c) then some (rec g2 f c, m)
      else abMaxLoop rec rest (some (rec g2 f c, m)) (fmax f (rec g2 f c)) c := by
  rw [abMaxLoop_cons]; simp [h]

theorem abMaxLoop_cons_keep (rec : Game → FScore → FScore → FScore) (m : Move)
    (g2 : Game) (rest : List (Move × Game)) (s₀ : FScore) (m₀ : Move)
    (f c : FScore) (h : bmax (rec g2 f c) s₀ = false) :
    abMaxLoop rec ((m, g2) :: rest) (some (s₀, m₀)) f c =
      if ble c s₀ then some (s₀, m₀)
      else abMaxLoop rec rest (some (s₀, m₀)) (fmax f s₀) c := by
  rw [abMaxLoop_cons]; simp [h]

theorem abMaxLoop_none_cons (rec : Game → FScore → FScore → FScore) (m : Move)
    (g2 : Game) (rest : List (Move × Game)) (f c : FScore) :
    abMaxLoop rec ((m, g2) :: rest) none f c =
      if ble c (rec g2 f c) then some (rec g2 f c, m)
      else abMaxLoop rec rest (some (rec g2 f c, m)) (fmax f (rec g2 f c)) c := rfl

theorem abMinLoop_cons (rec : Game → FScore → FScore → FScore) (m : Move)
    (g2 : Game) (rest : List (Move × Game)) (s₀ : FScore) (m₀ : Move)
    (f c : FScore) :
    abMinLoop rec ((m, g2) :: rest) (some (s₀, m₀)) f c =
      if ble (if bmin (rec g2 f c) s₀ then (rec g2 f c, m) else (s₀, m₀)).1 f then
        some (if bmin (rec g2 f c) s₀ then (rec g2 f c, m) else (s₀, m₀))
      else abMinLoop rec rest
        (some (if bmin (rec g2 f c) s₀ then (rec g2 f c, m) else (s₀, m₀))) f
        (fmin c (if bmin (rec g2 f c) s₀ then (rec g2 f c, m) else (s₀, m₀)).1)
      := rfl

theorem abMinLoop_cons_repl (rec : Game → FScore → FScore → FScore) (m : Move)
    (g2 : Game) (rest : List (Move × Game)) (s₀ : FScore) (m₀ : Move)
    (f c : FScore) (h : bmin (rec g2 f c) s₀ = true) :
    abMinLoop rec ((m, g2) :: rest) (some (s₀, m₀)) f c =
      if ble (rec g2 f c) f then some (rec g2 f c, m)
      else abMinLoop rec rest (some (rec g2 f c, m)) f (fmin c (rec g2 f c)) := by
  rw [abMinLoop_cons]; simp [h]

theorem abMinLoop_cons_keep (rec : Game → FScore → FScore → FScore) (m : Move)
    (g2 : Game) (rest : List (Move × Game)) (s₀ : FScore) (m₀ : Move)
    (f c : FScore) (h : bmin (rec g2 f c) s₀ = false) :
    abMinLoop rec ((m, g2) :: rest) (some (s₀, m₀)) f c =
      if ble s₀ f then some (s₀, m₀)
      else abMinLoop rec rest (some (s₀, m₀)) f (fmin c s₀) := by
  rw [abMinLoop_cons]; simp [h]

theorem abMinLoop_none_cons (rec : Game → FScore → FScore → FScore) (m : Move)
    (g2 : Game) (rest : List (Move × Game)) (f c : FScore) :
    abMinLoop rec ((m, g2) :: rest) none f c =
      if ble (rec g2 f c) f then some (rec g2 f c, m)
      else abMinLoop rec rest (some (rec g2 f c, m)) f (fmin c (rec g2 f c)) := rfl

/-- Invariant of the maximizing alpha-beta move loop, for a nonempty
accumulator.  `alpha` is the node's incoming alpha, `beta` its ceiling
(which the maximizing loop never changes); the loop's floor argument is
`fmax alpha s₀` where `s₀` is the accumulated best score. -/
theorem abMaxLoop_inv (rec : Game → FScore → FScore → FScore)
    (val : Game → FScore) (alpha beta : FScore) (hab : blt alpha beta = true) :
    ∀ l : List (Move × Game),
      (∀ p ∈ l, ∀ f, blt f beta = true →
        (ble (rec p.2 f beta) f = true → ble (val p.2) (rec p.2 f beta) = true) ∧
        (ble beta (rec p.2 f beta) = true →
          ble (rec p.2 f beta) (val p.2) = true) ∧
        (blt f (rec p.2 f beta) = true → blt (rec p.2 f beta) beta = true →
          rec p.2 f beta = val p.2)) →
      ∀ (s₀ : FScore) (m₀ : Move), blt s₀ beta = true →
      ∃ s₁ m₁,
        abMaxLoop rec l (some (s₀, m₀)) (fmax alpha s₀) beta = some (s₁, m₁) ∧
        (ble s₁ alpha = true → ble (fmax s₀ (supVal val l)) s₁ = true) ∧
        (blt alpha s₁ = true → ble s₁ (fmax s₀ (supVal val l)) = true) ∧
        (blt alpha s₁ = true → blt s₁ beta = true →
          s₁ = fmax s₀ (supVal val l)) ∧
        (m₁ = m₀ ∨ ∃ g2, (m₁, g2) ∈ l) ∧
        (blt alpha s₁ = true → blt s₁ beta = true →
          (m₁ = m₀ ∧ s₁ = s₀) ∨ ∃ g2, (m₁, g2) ∈ l ∧ val g2 = s₁) ∧
        (ble beta s₁ = true →
          ∃ g2, (m₁, g2) ∈ l ∧ ble s₁ (val g2) = true) := by
  intro l
  induction l with
  | nil =>
    intro _ s₀ m₀ hs₀
    have hV : fmax s₀ (supVal val []) = s₀ := fmax_eq_left (blt_ninf s₀)
    refine ⟨s₀, m₀, rfl, ?_, ?_, ?_, Or.inl rfl, fun _ _ => Or.inl ⟨rfl, rfl⟩, ?_⟩
    · intro _; rw [hV]; exact ble_refl s₀
    · intro _; rw [hV]; exact ble_refl s₀
    · intro _ _; rw [hV]
    · intro hb
      exact absurd (blt_of_blt_of_ble hs₀ hb) (by simp [blt_irrefl])
  | cons p rest ih =>
    obtain ⟨m, g2⟩ := p
    intro hrec s₀ m₀ hs₀
    have hrecRest : ∀ p ∈ rest, ∀ f, blt f beta = true →
        (ble (rec p.2 f beta) f = true → ble (val p.2) (rec p.2 f beta) = true) ∧
        (ble beta (rec p.2 f beta) = true →
          ble (rec p.2 f beta) (val p.2) = true) ∧
        (blt f (rec p.2 f beta) = true → blt (rec p.2 f beta) beta = true →
          rec p.2 f beta = val p.2) :=
      fun p hp => hrec p (List.mem_cons_of_mem _ hp)
    have hfb : blt (fmax alpha s₀) beta = true := fmax_blt hab hs₀
    have htrip := hrec (m, g2) (List.mem_cons_self _ _) (fmax alpha s₀) hfb
    have hT1 : ble (rec g2 (fmax alpha s₀) beta) (fmax alpha s₀) = true →
        ble (val g2) (rec g2 (fmax alpha s₀) beta) = true := htrip.1
    have hT2 : ble beta (rec g2 (fmax alpha s₀) beta) = true →
        ble (rec g2 (fmax alpha s₀) beta) (val g2) = true := htrip.2.1
    have hT3 : blt (fmax alpha s₀) (rec g2 (fmax alpha s₀) beta) = true →
        blt (rec g2 (fmax alpha s₀) beta) beta = true →
        rec g2 (fmax alpha s₀) beta = val g2 := htrip.2.2
    have hVcons : fmax s₀ (supVal val ((m, g2) :: rest)) =
        fmax s₀ (fmax (val g2) (supVal val rest)) := rfl
    have hT2' : blt (fmax alpha s₀) (rec g2 (fmax alpha s₀) beta) = true →
        ble (rec g2 (fmax alpha s₀) beta) (val g2) = true := by
      intro hf
      rcases ble_total beta (rec g2 (fmax alpha s₀) beta) with hc | hc
      · exact hT2 hc
      · rcases blt_or_eq_of_ble hc with hc' | hc'
        · rw [hT3 hf hc']; exact ble_refl _
        · exact hT2 (by rw [hc']; exact ble_refl beta)
    by_cases hacc : bmax (rec g2 (fmax alpha s₀) beta) s₀ = true
    · -- the head replaces the accumulator
      have hs0ns : blt s₀ (rec g2 (fmax alpha s₀) beta) = true := hacc
      have hstep := abMaxLoop_cons_repl rec m g2 rest s₀ m₀ (fmax alpha s₀) beta hacc
      by_cases hbr : ble beta (rec g2 (fmax alpha s₀) beta) = true
      · -- beta cutoff: break with the head's score
        have hvg : ble (rec g2 (fmax alpha s₀) beta) (val g2) = true := hT2 hbr
        refine ⟨rec g2 (fmax alpha s₀) beta, m, ?_, ?_, ?_, ?_, ?_, ?_, ?_⟩
        · rw [hstep, if_pos hbr]
        · intro hle
          have h1 : blt alpha (rec g2 (fmax alpha s₀) beta) = true :=
            blt_of_blt_of_ble hab hbr
          exact absurd (blt_of_blt_of_ble h1 hle) (by simp [blt_irrefl])
        · intro _
          rw [hVcons]
          exact ble_trans hvg
            (ble_trans (ble_fmax_left _ _) (ble_fmax_right _ _))
        · intro _ hlt
          exact absurd (blt_of_ble_of_blt hbr hlt) (by simp [blt_irrefl])
        · exact Or.inr ⟨g2, List.mem_cons_self _ _⟩
        · intro _ hlt
          exact absurd (blt_of_ble_of_blt hbr hlt) (by simp [blt_irrefl])
        · intro _
          exact ⟨g2, List.mem_cons_self _ _, hvg⟩
      · -- continue with the head's score as the new best
        have hnsb : blt (rec g2 (fmax alpha s₀) beta) beta = true :=
          (blt_iff_not_ble _ _).2 (by simpa using hbr)
        have hfloor : fmax (fmax alpha s₀) (rec g2 (fmax alpha s₀) beta) =
            fmax alpha (rec g2 (fmax alpha s₀) beta) :=
          fmax_fmax_of_ble (ble_of_blt hs0ns)
        obtain ⟨s₁, m₁, heq, hC1, hC2, hC3, hC4, hC5, hC6⟩ :=
          ih hrecRest (rec g2 (fmax alpha s₀) beta) m hnsb
        have hns_le : ble (rec g2 (fmax alpha s₀) beta)
            (fmax (rec g2 (fmax alpha s₀) beta) (supVal val rest)) = true :=
          ble_fmax_left _ _
        -- upper transfer: alpha < s₁ → s₁ ≤ fmax s₀ (fmax (val g2) S)
        have hc2t : blt alpha s₁ = true →
            ble s₁ (fmax s₀ (fmax (val g2) (supVal val rest))) = true := by
          intro hgt
          have hup := hC2 hgt
          rcases ble_fmax_cases hup with hup1 | hup2
          · -- s₁ ≤ the head's score
            by_cases hc : ble (rec g2 (fmax alpha s₀) beta) (fmax alpha s₀) = true
            · rcases ble_fmax_cases (ble_trans hup1 hc) with hca | hcs
              · exact absurd (blt_of_blt_of_ble hgt hca) (by simp [blt_irrefl])
              · exact ble_trans hcs (ble_fmax_left _ _)
            · have hfns : blt (fmax alpha s₀)
                  (rec g2 (fmax alpha s₀) beta) = true :=
                (blt_iff_not_ble _ _).2 (by simpa using hc)
              exact ble_trans (ble_trans hup1 (hT2' hfns))
                (ble_trans (ble_fmax_left _ _) (ble_fmax_right _ _))
          · -- s₁ ≤ the tail's sup
            exact ble_trans hup2
              (ble_trans (ble_fmax_right (val g2) _) (ble_fmax_right s₀ _))
        refine ⟨s₁, m₁, ?_, ?_, ?_, ?_, ?_, ?_, ?_⟩
        · rw [hstep, if_neg hbr, hfloor]
          exact heq
        · -- lower transfer (fail-low)
          intro hle
          have hdn := hC1 hle
          have hnss₁ : ble (rec g2 (fmax alpha s₀) beta) s₁ = true :=
            ble_trans hns_le hdn
          have hSs₁ : ble (supVal val rest) s₁ = true :=
            ble_trans (ble_fmax_right _ _) hdn
          have hvgns : ble (val g2) (rec g2 (fmax alpha s₀) beta) = true :=
            hT1 (ble_trans (ble_trans hnss₁ hle) (ble_fmax_left alpha s₀))
          rw [hVcons]
          exact fmax_ble (ble_trans (ble_of_blt hs0ns) hnss₁)
            (fmax_ble (ble_trans hvgns hnss₁) hSs₁)
        · intro hgt
          rw [hVcons]
          exact hc2t hgt
        · -- exact value transfer
          intro hgt hlt
          have h3 := hC3 hgt hlt
          rw [hVcons]
          apply ble_antisymm (hc2t hgt)
          have hnss₁ : ble (rec g2 (fmax alpha s₀) beta) s₁ = true := by
            rw [h3]; exact ble_fmax_left _ _
          have hSs₁ : ble (supVal val rest) s₁ = true := by
            rw [h3]; exact ble_fmax_right _ _
          have hvgs₁ : ble (val g2) s₁ = true := by
            by_cases hc : ble (rec g2 (fmax alpha s₀) beta) (fmax alpha s₀) = true
            · exact ble_trans (hT1 hc) hnss₁
            · have hfns : blt (fmax alpha s₀)
                  (rec g2 (fmax alpha s₀) beta) = true :=
                (blt_iff_not_ble _ _).2 (by simpa using hc)
              have hnsb2 : blt (rec g2 (fmax alpha s₀) beta) beta = true :=
                blt_of_ble_of_blt hnss₁ hlt
              rw [← hT3 hfns hnsb2]
              exact hnss₁
          exact fmax_ble (ble_trans (ble_of_blt hs0ns) hnss₁)
            (fmax_ble hvgs₁ hSs₁)
        · rcases hC4 with h4 | ⟨gg, hgg⟩
          · exact Or.inr ⟨g2, by rw [h4]; exact List.mem_cons_self _ _⟩
          · exact Or.inr ⟨gg, List.mem_cons_of_mem _ hgg⟩
        · intro hgt hlt
          rcases hC5 hgt hlt with ⟨hm1, hseq⟩ | ⟨gg, hgg, hgv⟩
          · refine Or.inr ⟨g2, by rw [hm1]; exact List.mem_cons_self _ _, ?_⟩
            have hgt2 : blt alpha (rec g2 (fmax alpha s₀) beta) = true := by
              rw [← hseq]; exact hgt
            have hlt2 : blt (rec g2 (fmax alpha s₀) beta) beta = true := by
              rw [← hseq]; exact hlt
            have hfns : blt (fmax alpha s₀)
                (rec g2 (fmax alpha s₀) beta) = true := fmax_blt hgt2 hs0ns
            rw [hseq, hT3 hfns hlt2]
          · exact Or.inr ⟨gg, List.mem_cons_of_mem _ hgg, hgv⟩
        · intro hb
          obtain ⟨gg, hgg, hgv⟩ := hC6 hb
          exact ⟨gg, List.mem_cons_of_mem _ hgg, hgv⟩
    · -- the accumulator survives the head
      have hnss₀ : ble (rec g2 (fmax alpha s₀) beta) s₀ = true :=
        (ble_iff_not_blt _ _).2 (by simpa [bmax] using hacc)
      have hstep := abMaxLoop_cons_keep rec m g2 rest s₀ m₀ (fmax alpha s₀) beta
        (by simpa using hacc)
      have hnbr : ¬ ble beta s₀ = true := by
        intro hb
        exact absurd (blt_of_blt_of_ble hs₀ hb) (by simp [blt_irrefl])
      have hfloor : fmax (fmax alpha s₀) s₀ = fmax alpha s₀ :=
        fmax_fmax_of_ble (ble_refl s₀)
      obtain ⟨s₁, m₁, heq, hC1, hC2, hC3, hC4, hC5, hC6⟩ :=
        ih hrecRest s₀ m₀ hs₀
      have hvg_all : ble (rec g2 (fmax alpha s₀) beta) (fmax alpha s₀) = true :=
        ble_trans hnss₀ (ble_fmax_right alpha s₀)
      have hvgns : ble (val g2) (rec g2 (fmax alpha s₀) beta) = true :=
        hT1 hvg_all
      have hvgs₀ : ble (val g2) s₀ = true := ble_trans hvgns hnss₀
      have hc2t : blt alpha s₁ = true →
          ble s₁ (fmax s₀ (fmax (val g2) (supVal val rest))) = true := by
        intro hgt
        have hup := hC2 hgt
        rcases ble_fmax_cases hup with hup1 | hup2
        · exact ble_trans hup1 (ble_fmax_left _ _)
        · exact ble_trans hup2
            (ble_trans (ble_fmax_right (val g2) _) (ble_fmax_right s₀ _))
      refine ⟨s₁, m₁, ?_, ?_, ?_, ?_, ?_, ?_, ?_⟩
      · rw [hstep, if_neg hnbr, hfloor]
        exact heq
      · intro hle
        have hdn := hC1 hle
        have hs₀s₁ : ble s₀ s₁ = true := ble_trans (ble_fmax_left _ _) hdn
        have hSs₁ : ble (supVal val rest) s₁ = true :=
          ble_trans (ble_fmax_right _ _) hdn
        rw [hVcons]
        exact fmax_ble hs₀s₁ (fmax_ble (ble_trans hvgs₀ hs₀s₁) hSs₁)
      · intro hgt
        rw [hVcons]
        exact hc2t hgt
      · intro hgt hlt
        have h3 := hC3 hgt hlt
        rw [hVcons]
        apply ble_antisymm (hc2t hgt)
        have hs₀s₁ : ble s₀ s₁ = true := by
          rw [h3]; exact ble_fmax_left _ _
        have hSs₁ : ble (supVal val rest) s₁ = true := by
          rw [h3]; exact ble_fmax_right _ _
        exact fmax_ble hs₀s₁ (fmax_ble (ble_trans hvgs₀ hs₀s₁) hSs₁)
      · rcases hC4 with h4 | ⟨gg, hgg⟩
        · exact Or.inl h4
        · exact Or.inr ⟨gg, List.mem_cons_of_mem _ hgg⟩
      · intro hgt hlt
        rcases hC5 hgt hlt with ⟨hm1, hseq⟩ | ⟨gg, hgg, hgv⟩
        · exact Or.inl ⟨hm1, hseq⟩
        · exact Or.inr ⟨gg, List.mem_cons_of_mem _ hgg, hgv⟩
      · intro hb
        obtain ⟨gg, hgg, hgv⟩ := hC6 hb
        exact ⟨gg, List.mem_cons_of_mem _ hgg, hgv⟩

/-- Fail-soft triple and move attainment for a full maximizing node. -/
theorem abMaxNode (rec : Game → FScore → FScore → FScore)
    (val : Game → FScore) (alpha beta : FScore) (hab : blt alpha beta = true)
    (q : Move × Game) (rest : List (Move × Game))
    (hrec : ∀ p ∈ q :: rest, ∀ f, blt f beta = true →
      (ble (rec p.2 f beta) f = true → ble (val p.2) (rec p.2 f beta) = true) ∧
      (ble beta (rec p.2 f beta) = true →
        ble (rec p.2 f beta) (val p.2) = true) ∧
      (blt f (rec p.2 f beta) = true → blt (rec p.2 f beta) beta = true →
        rec p.2 f beta = val p.2)) :
    ∃ s₁ m₁, abMaxLoop rec (q :: rest) none alpha beta = some (s₁, m₁) ∧
      (ble s₁ alpha = true → ble (supVal val (q :: rest)) s₁ = true) ∧
      (blt alpha s₁ = true → ble s₁ (supVal val (q :: rest)) = true) ∧
      (blt alpha s₁ = true → blt s₁ beta = true →
        s₁ = supVal val (q :: rest)) ∧
      (∃ g2, (m₁, g2) ∈ q :: rest) ∧
      (blt alpha s₁ = true → blt s₁ beta = true →
        ∃ g2, (m₁, g2) ∈ q :: rest ∧ val g2 = s₁) ∧
      (ble beta s₁ = true →
        ∃ g2, (m₁, g2) ∈ q :: rest ∧ ble s₁ (val g2) = true) := by
  obtain ⟨m, g2⟩ := q
  have hrecRest : ∀ p ∈ rest, ∀ f, blt f beta = true →
      (ble (rec p.2 f beta) f = true → ble (val p.2) (rec p.2 f beta) = true) ∧
      (ble beta (rec p.2 f beta) = true →
        ble (rec p.2 f beta) (val p.2) = true) ∧
      (blt f (rec p.2 f beta) = true → blt (rec p.2 f beta) beta = true →
        rec p.2 f beta = val p.2) :=
    fun p hp => hrec p (List.mem_cons_of_mem _ hp)
  have htrip := hrec (m, g2) (List.mem_cons_self _ _) alpha hab
  have hT1 : ble (rec g2 alpha beta) alpha = true →
      ble (val g2) (rec g2 alpha beta) = true := htrip.1
  have hT2 : ble beta (rec g2 alpha beta) = true →
      ble (rec g2 alpha beta) (val g2) = true := htrip.2.1
  have hT3 : blt alpha (rec g2 alpha beta) = true →
      blt (rec g2 alpha beta) beta = true →
      rec g2 alpha beta = val g2 := htrip.2.2
  have hT2' : blt alpha (rec g2 alpha beta) = true →
      ble (rec g2 alpha beta) (val g2) = true := by
    intro hf
    rcases ble_total beta (rec g2 alpha beta) with hc | hc
    · exact hT2 hc
    · rcases blt_or_eq_of_ble hc with hc' | hc'
      · rw [hT3 hf hc']; exact ble_refl _
      · exact hT2 (by rw [hc']; exact ble_refl beta)
  have hVcons : supVal val ((m, g2) :: rest) =
      fmax (val g2) (supVal val rest) := rfl
  rw [abMaxLoop_none_cons]
  by_cases hbr : ble beta (rec g2 alpha beta) = true
  · -- immediate beta cutoff on the first child
    have hvg : ble (rec g2 alpha beta) (val g2) = true := hT2 hbr
    refine ⟨rec g2 alpha beta, m, by rw [if_pos hbr], ?_, ?_, ?_,
      ⟨g2, List.mem_cons_self _ _⟩, ?_, ?_⟩
    · intro hle
      have h1 : blt alpha (rec g2 alpha beta) = true := blt_of_blt_of_ble hab hbr
      exact absurd (blt_of_blt_of_ble h1 hle) (by simp [blt_irrefl])
    · intro _
      rw [hVcons]
      exact ble_trans hvg (ble_fmax_left _ _)
    · intro _ hlt
      exact absurd (blt_of_ble_of_blt hbr hlt) (by simp [blt_irrefl])
    · intro _ hlt
      exact absurd (blt_of_ble_of_blt hbr hlt) (by simp [blt_irrefl])
    · intro _
      exact ⟨g2, List.mem_cons_self _ _, hvg⟩
  · have hnsb : blt (rec g2 alpha beta) beta = true :=
      (blt_iff_not_ble _ _).2 (by simpa using hbr)
    obtain ⟨s₁, m₁, heq, hC1, hC2, hC3, hC4, hC5, hC6⟩ :=
      abMaxLoop_inv rec val alpha beta hab rest hrecRest
        (rec g2 alpha beta) m hnsb
    have hc2t : blt alpha s₁ = true →
        ble s₁ (fmax (val g2) (supVal val rest)) = true := by
      intro hgt
      have hup := hC2 hgt
      rcases ble_fmax_cases hup with hup1 | hup2
      · by_cases hc : ble (rec g2 alpha beta) alpha = true
        · exact absurd (blt_of_blt_of_ble hgt (ble_trans hup1 hc))
            (by simp [blt_irrefl])
        · have hf : blt alpha (rec g2 alpha beta) = true :=
            (blt_iff_not_ble _ _).2 (by simpa using hc)
          exact ble_trans (ble_trans hup1 (hT2' hf)) (ble_fmax_left _ _)
      · exact ble_trans hup2 (ble_fmax_right _ _)
    refine ⟨s₁, m₁, by rw [if_neg hbr]; exact heq, ?_, ?_, ?_, ?_, ?_, ?_⟩
    · intro hle
      have hdn := hC1 hle
      have hnss₁ : ble (rec g2 alpha beta) s₁ = true :=
        ble_trans (ble_fmax_left _ _) hdn
      have hSs₁ : ble (supVal val rest) s₁ = true :=
        ble_trans (ble_fmax_right _ _) hdn
      have hvgns : ble (val g2) (rec g2 alpha beta) = true :=
        hT1 (ble_trans hnss₁ hle)
      rw [hVcons]
      exact fmax_ble (ble_trans hvgns hnss₁) hSs₁
    · intro hgt
      rw [hVcons]
      exact hc2t hgt
    · intro hgt hlt
      have h3 := hC3 hgt hlt
      rw [hVcons]
      apply ble_antisymm (hc2t hgt)
      have hnss₁ : ble (rec g2 alpha beta) s₁ = true := by
        rw [h3]; exact ble_fmax_left _ _
      have hSs₁ : ble (supVal val rest) s₁ = true := by
        rw [h3]; exact ble_fmax_right _ _
      have hvgs₁ : ble (val g2) s₁ = true := by
        by_cases hc : ble (rec g2 alpha beta) alpha = true
        · exact ble_trans (hT1 hc) hnss₁
        · have hf : blt alpha (rec g2 alpha beta) = true :=
            (blt_iff_not_ble _ _).2 (by simpa using hc)
          rw [← hT3 hf (blt_of_ble_of_blt hnss₁ hlt)]
          exact hnss₁
      exact fmax_ble hvgs₁ hSs₁
    · rcases hC4 with h4 | ⟨gg, hgg⟩
      · exact ⟨g2, by rw [h4]; exact List.mem_cons_self _ _⟩
      · exact ⟨gg, List.mem_cons_of_mem _ hgg⟩
    · intro hgt hlt
      rcases hC5 hgt hlt with ⟨hm1, hseq⟩ | ⟨gg, hgg, hgv⟩
      · refine ⟨g2, by rw [hm1]; exact List.mem_cons_self _ _, ?_⟩
        have hgt2 : blt alpha (rec g2 alpha beta) = true := by
          rw [← hseq]; exact hgt
        have hlt2 : blt (rec g2 alpha beta) beta = true := by
          rw [← hseq]; exact hlt
        rw [hseq, hT3 hgt2 hlt2]
      · exact ⟨gg, List.mem_cons_of_mem _ hgg, hgv⟩
    · intro hb
      obtain ⟨gg, hgg, hgv⟩ := hC6 hb
      exact ⟨gg, List.mem_cons_of_mem _ hgg, hgv⟩

/-- Invariant of the minimizing alpha-beta move loop, for a nonempty
accumulator.  `beta` is the node's incoming beta (the loop's floor stays at
`alpha`); the loop's ceiling argument is `fmin beta s₀`. -/
theorem abMinLoop_inv (rec : Game → FScore → FScore → FScore)
    (val : Game → FScore) (alpha beta : FScore) (hab : blt alpha beta = true) :
    ∀ l : List (Move × Game),
      (∀ p ∈ l, ∀ c, blt alpha c = true →
        (ble (rec p.2 alpha c) alpha = true →
          ble (val p.2) (rec p.2 alpha c) = true) ∧
        (ble c (rec p.2 alpha c) = true →
          ble (rec p.2 alpha c) (val p.2) = true) ∧
        (blt alpha (rec p.2 alpha c) = true → blt (rec p.2 alpha c) c = true →
          rec p.2 alpha c = val p.2)) →
      ∀ (s₀ : FScore) (m₀ : Move), blt alpha s₀ = true →
      ∃ s₁ m₁,
        abMinLoop rec l (some (s₀, m₀)) alpha (fmin beta s₀) = some (s₁, m₁) ∧
        (ble beta s₁ = true → ble s₁ (fmin s₀ (infVal val l)) = true) ∧
        (blt s₁ beta = true → ble (fmin s₀ (infVal val l)) s₁ = true) ∧
        (blt alpha s₁ = true → blt s₁ beta = true →
          s₁ = fmin s₀ (infVal val l)) := by
  intro l
  induction l with
  | nil =>
    intro _ s₀ m₀ hs₀
    have hW : fmin s₀ (infVal val []) = s₀ := fmin_eq_left (blt_pinf s₀)
    refine ⟨s₀, m₀, rfl, ?_, ?_, ?_⟩
    · intro _; rw [hW]; exact ble_refl s₀
    · intro _; rw [hW]; exact ble_refl s₀
    · intro _ _; rw [hW]
  | cons p rest ih =>
    obtain ⟨m, g2⟩ := p
    intro hrec s₀ m₀ hs₀
    have hrecRest : ∀ p ∈ rest, ∀ c, blt alpha c = true →
        (ble (rec p.2 alpha c) alpha = true →
          ble (val p.2) (rec p.2 alpha c) = true) ∧
        (ble c (rec p.2 alpha c) = true →
          ble (rec p.2 alpha c) (val p.2) = true) ∧
        (blt alpha (rec p.2 alpha c) = true → blt (rec p.2 alpha c) c = true →
          rec p.2 alpha c = val p.2) :=
      fun p hp => hrec p (List.mem_cons_of_mem _ hp)
    have hac : blt alpha (fmin beta s₀) = true := fmin_blt hab hs₀
    have htrip := hrec (m, g2) (List.mem_cons_self _ _) (fmin beta s₀) hac
    have hU1 : ble (rec g2 alpha (fmin beta s₀)) alpha = true →
        ble (val g2) (rec g2 alpha (fmin beta s₀)) = true := htrip.1
    have hU2 : ble (fmin beta s₀) (rec g2 alpha (fmin beta s₀)) = true →
        ble (rec g2 alpha (fmin beta s₀)) (val g2) = true := htrip.2.1
    have hU3 : blt alpha (rec g2 alpha (fmin beta s₀)) = true →
        blt (rec g2 alpha (fmin beta s₀)) (fmin beta s₀) = true →
        rec g2 alpha (fmin beta s₀) = val g2 := htrip.2.2
    have hU1' : blt (rec g2 alpha (fmin beta s₀)) (fmin beta s₀) = true →
        ble (val g2) (rec g2 alpha (fmin beta s₀)) = true := by
      intro hf
      rcases ble_total (rec g2 alpha (fmin beta s₀)) alpha with hc | hc
      · exact hU1 hc
      · rcases blt_or_eq_of_ble hc with hc' | hc'
        · rw [hU3 hc' hf]; exact ble_refl _
        · exact hU1 (by rw [← hc']; exact ble_refl _)
    have hWcons : fmin s₀ (infVal val ((m, g2) :: rest)) =
        fmin s₀ (fmin (val g2) (infVal val rest)) := rfl
    by_cases hacc : bmin (rec g2 alpha (fmin beta s₀)) s₀ = true
    · -- the head replaces the accumulator
      have hs0ns : blt (rec g2 alpha (fmin beta s₀)) s₀ = true := hacc
      have hstep := abMinLoop_cons_repl rec m g2 rest s₀ m₀ alpha
        (fmin beta s₀) hacc
      have hceil : fmin (fmin beta s₀) (rec g2 alpha (fmin beta s₀)) =
          fmin beta (rec g2 alpha (fmin beta s₀)) :=
        fmin_fmin_of_ble (ble_of_blt hs0ns)
      by_cases hbr : ble (rec g2 alpha (fmin beta s₀)) alpha = true
      · -- alpha cutoff: break with the head's score
        have hvg : ble (val g2) (rec g2 alpha (fmin beta s₀)) = true := hU1 hbr
        refine ⟨rec g2 alpha (fmin beta s₀), m, ?_, ?_, ?_, ?_⟩
        · rw [hstep, if_pos hbr]
        · intro hb
          exact absurd (blt_of_blt_of_ble hab (ble_trans hb hbr))
            (by simp [blt_irrefl])
        · intro _
          rw [hWcons]
          exact ble_trans
            (ble_trans (fmin_ble_right s₀ _) (fmin_ble_left _ _)) hvg
        · intro hgt _
          exact absurd (blt_of_blt_of_ble hgt hbr) (by simp [blt_irrefl])
      · -- continue with the head's score as the new best
        have hans : blt alpha (rec g2 alpha (fmin beta s₀)) = true :=
          (blt_iff_not_ble _ _).2 (by simpa using hbr)
        obtain ⟨s₁, m₁, heq, hD1, hD2, hD3⟩ :=
          ih hrecRest (rec g2 alpha (fmin beta s₀)) m hans
        have hd2t : blt s₁ beta = true →
            ble (fmin s₀ (fmin (val g2) (infVal val rest))) s₁ = true := by
          intro hlt
          have hdn := hD2 hlt
          rcases ble_fmin_cases hdn with hdn1 | hdn2
          · by_cases hc : ble (fmin beta s₀)
                (rec g2 alpha (fmin beta s₀)) = true
            · rcases ble_fmin_cases hc with hcb | hcs
              · exact absurd
                  (blt_of_ble_of_blt (ble_trans hcb hdn1) hlt)
                  (by simp [blt_irrefl])
              · exact ble_trans (fmin_ble_left s₀ _) (ble_trans hcs hdn1)
            · have hf : blt (rec g2 alpha (fmin beta s₀))
                  (fmin beta s₀) = true :=
                (blt_iff_not_ble _ _).2 (by simpa using hc)
              exact ble_trans
                (ble_trans (fmin_ble_right s₀ _) (fmin_ble_left _ _))
                (ble_trans (hU1' hf) hdn1)
          · exact ble_trans
              (ble_trans (fmin_ble_right s₀ _) (fmin_ble_right _ _)) hdn2
        refine ⟨s₁, m₁, ?_, ?_, ?_, ?_⟩
        · rw [hstep, if_neg hbr, hceil]
          exact heq
        · intro hb
          have hup := hD1 hb
          have hs₁ns : ble s₁ (rec g2 alpha (fmin beta s₀)) = true :=
            ble_trans hup (fmin_ble_left _ _)
          have hs₁S : ble s₁ (infVal val rest) = true :=
            ble_trans hup (fmin_ble_right _ _)
          have hs₁vg : ble s₁ (val g2) = true := by
            by_cases hc : ble (fmin beta s₀)
                (rec g2 alpha (fmin beta s₀)) = true
            · exact ble_trans hs₁ns (hU2 hc)
            · have hf : blt (rec g2 alpha (fmin beta s₀))
                  (fmin beta s₀) = true :=
                (blt_iff_not_ble _ _).2 (by simpa using hc)
              rw [← hU3 hans hf]
              exact hs₁ns
          rw [hWcons]
          exact ble_fmin (ble_trans hs₁ns (ble_of_blt hs0ns))
            (ble_fmin hs₁vg hs₁S)
        · intro hlt
          rw [hWcons]
          exact hd2t hlt
        · intro hgt hlt
          have h3 := hD3 hgt hlt
          rw [hWcons]
          refine ble_antisymm ?_ (hd2t hlt)
          have hs₁ns : ble s₁ (rec g2 alpha (fmin beta s₀)) = true := by
            rw [h3]; exact fmin_ble_left _ _
          have hs₁S : ble s₁ (infVal val rest) = true := by
            rw [h3]; exact fmin_ble_right _ _
          have hs₁vg : ble s₁ (val g2) = true := by
            by_cases hc : ble (fmin beta s₀)
                (rec g2 alpha (fmin beta s₀)) = true
            · exact ble_trans hs₁ns (hU2 hc)
            · have hf : blt (rec g2 alpha (fmin beta s₀))
                  (fmin beta s₀) = true :=
                (blt_iff_not_ble _ _).2 (by simpa using hc)
              rw [← hU3 hans hf]
              exact hs₁ns
          exact ble_fmin (ble_trans hs₁ns (ble_of_blt hs0ns))
            (ble_fmin hs₁vg hs₁S)
    · -- the accumulator survives the head
      have hs₀ns : ble s₀ (rec g2 alpha (fmin beta s₀)) = true :=
        (ble_iff_not_blt _ _).2 (by simpa [bmin] using hacc)
      have hstep := abMinLoop_cons_keep rec m g2 rest s₀ m₀ alpha
        (fmin beta s₀) (by simpa using hacc)
      have hnbr : ¬ ble s₀ alpha = true := by
        intro hb
        exact absurd (blt_of_blt_of_ble hs₀ hb) (by simp [blt_irrefl])
      have hceil : fmin (fmin beta s₀) s₀ = fmin beta s₀ :=
        fmin_fmin_of_ble (ble_refl s₀)
      obtain ⟨s₁, m₁, heq, hD1, hD2, hD3⟩ := ih hrecRest s₀ m₀ hs₀
      have hc₀ns : ble (fmin beta s₀) (rec g2 alpha (fmin beta s₀)) = true :=
        ble_trans (fmin_ble_right beta s₀) hs₀ns
      have hs₀vg : ble s₀ (val g2) = true :=
        ble_trans hs₀ns (hU2 hc₀ns)
      have hd2t : blt s₁ beta = true →
          ble (fmin s₀ (fmin (val g2) (infVal val rest))) s₁ = true := by
        intro hlt
        have hdn := hD2 hlt
        rcases ble_fmin_cases hdn with hdn1 | hdn2
        · exact ble_trans (fmin_ble_left s₀ _) hdn1
        · exact ble_trans
            (ble_trans (fmin_ble_right s₀ _) (fmin_ble_right _ _)) hdn2
      refine ⟨s₁, m₁, ?_, ?_, ?_, ?_⟩
      · rw [hstep, if_neg hnbr, hceil]
        exact heq
      · intro hb
        have hup := hD1 hb
        have hs₁s₀ : ble s₁ s₀ = true := ble_trans hup (fmin_ble_left _ _)
        have hs₁S : ble s₁ (infVal val rest) = true :=
          ble_trans hup (fmin_ble_right _ _)
        rw [hWcons]
        exact ble_fmin hs₁s₀ (ble_fmin (ble_trans hs₁s₀ hs₀vg) hs₁S)
      · intro hlt
        rw [hWcons]
        exact hd2t hlt
      · intro hgt hlt
        have h3 := hD3 hgt hlt
        rw [hWcons]
        refine ble_antisymm ?_ (hd2t hlt)
        have hs₁s₀ : ble s₁ s₀ = true := by
          rw [h3]; exact fmin_ble_left _ _
        have hs₁S : ble s₁ (infVal val rest) = true := by
          rw [h3]; exact fmin_ble_right _ _
        exact ble_fmin hs₁s₀ (ble_fmin (ble_trans hs₁s₀ hs₀vg) hs₁S)

/-- Fail-soft triple for a full minimizing node. -/
theorem abMinNode (rec : Game → FScore → FScore → FScore)
    (val : Game → FScore) (alpha beta : FScore) (hab : blt alpha beta = true)
    (q : Move × Game) (rest : List (Move × Game))
    (hrec : ∀ p ∈ q :: rest, ∀ c, blt alpha c = true →
      (ble (rec p.2 alpha c) alpha = true →
        ble (val p.2) (rec p.2 alpha c) = true) ∧
      (ble c (rec p.2 alpha c) = true →
        ble (rec p.2 alpha c) (val p.2) = true) ∧
      (blt alpha (rec p.2 alpha c) = true → blt (rec p.2 alpha c) c = true →
        rec p.2 alpha c = val p.2)) :
    ∃ s₁ m₁, abMinLoop rec (q :: rest) none alpha beta = some (s₁, m₁) ∧
      (ble beta s₁ = true → ble s₁ (infVal val (q :: rest)) = true) ∧
      (blt s₁ beta = true → ble (infVal val (q :: rest)) s₁ = true) ∧
      (blt alpha s₁ = true → blt s₁ beta = true →
        s₁ = infVal val (q :: rest)) := by
  obtain ⟨m, g2⟩ := q
  have hrecRest : ∀ p ∈ rest, ∀ c, blt alpha c = true →
      (ble (rec p.2 alpha c) alpha = true →
        ble (val p.2) (rec p.2 alpha c) = true) ∧
      (ble c (rec p.2 alpha c) = true →
        ble (rec p.2 alpha c) (val p.2) = true) ∧
      (blt alpha (rec p.2 alpha c) = true → blt (rec p.2 alpha c) c = true →
        rec p.2 alpha c = val p.2) :=
    fun p hp => hrec p (List.mem_cons_of_mem _ hp)
  have htrip := hrec (m, g2) (List.mem_cons_self _ _) beta hab
  have hU1 : ble (rec g2 alpha beta) alpha = true →
      ble (val g2) (rec g2 alpha beta) = true := htrip.1
  have hU2 : ble beta (rec g2 alpha beta) = true →
      ble (rec g2 alpha beta) (val g2) = true := htrip.2.1
  have hU3 : blt alpha (rec g2 alpha beta) = true →
      blt (rec g2 alpha beta) beta = true →
      rec g2 alpha beta = val g2 := htrip.2.2
  have hU1' : blt (rec g2 alpha beta) beta = true →
      ble (val g2) (rec g2 alpha beta) = true := by
    intro hf
    rcases ble_total (rec g2 alpha beta) alpha with hc | hc
    · exact hU1 hc
    · rcases blt_or_eq_of_ble hc with hc' | hc'
      · rw [hU3 hc' hf]; exact ble_refl _
      · exact hU1 (by rw [← hc']; exact ble_refl _)
  have hWcons : infVal val ((m, g2) :: rest) =
      fmin (val g2) (infVal val rest) := rfl
  rw [abMinLoop_none_cons]
  by_cases hbr : ble (rec g2 alpha beta) alpha = true
  · -- immediate alpha cutoff on the first child
    have hvg : ble (val g2) (rec g2 alpha beta) = true := hU1 hbr
    refine ⟨rec g2 alpha beta, m, by rw [if_pos hbr], ?_, ?_, ?_⟩
    · intro hb
      exact absurd (blt_of_blt_of_ble hab (ble_trans hb hbr))
        (by simp [blt_irrefl])
    · intro _
      rw [hWcons]
      exact ble_trans (fmin_ble_left _ _) hvg
    · intro hgt _
      exact absurd (blt_of_blt_of_ble hgt hbr) (by simp [blt_irrefl])
  · have hans : blt alpha (rec g2 alpha beta) = true :=
      (blt_iff_not_ble _ _).2 (by simpa using hbr)
    obtain ⟨s₁, m₁, heq, hD1, hD2, hD3⟩ :=
      abMinLoop_inv rec val alpha beta hab rest hrecRest
        (rec g2 alpha beta) m hans
    have hd2t : blt s₁ beta = true →
        ble (fmin (val g2) (infVal val rest)) s₁ = true := by
      intro hlt
      have hdn := hD2 hlt
      rcases ble_fmin_cases hdn with hdn1 | hdn2
      · by_cases hc : ble beta (rec g2 alpha beta) = true
        · exact absurd (blt_of_ble_of_blt (ble_trans hc hdn1) hlt)
            (by simp [blt_irrefl])
        · have hf : blt (rec g2 alpha beta) beta = true :=
            (blt_iff_not_ble _ _).2 (by simpa using hc)
          exact ble_trans (fmin_ble_left _ _) (ble_trans (hU1' hf) hdn1)
      · exact ble_trans (fmin_ble_right _ _) hdn2
    refine ⟨s₁, m₁, by rw [if_neg hbr]; exact heq, ?_, ?_, ?_⟩
    · intro hb
      have hup := hD1 hb
      have hs₁ns : ble s₁ (rec g2 alpha beta) = true :=
        ble_trans hup (fmin_ble_left _ _)
      have hs₁S : ble s₁ (infVal val rest) = true :=
        ble_trans hup (fmin_ble_right _ _)
      have hs₁vg : ble s₁ (val g2) = true := by
        by_cases hc : ble beta (rec g2 alpha beta) = true
        · exact ble_trans hs₁ns (hU2 hc)
        · have hf : blt (rec g2 alpha beta) beta = true :=
            (blt_iff_not_ble _ _).2 (by simpa using hc)
          rw [← hU3 hans hf]
          exact hs₁ns
      rw [hWcons]
      exact ble_fmin hs₁vg hs₁S
    · intro hlt
      rw [hWcons]
      exact hd2t hlt
    · intro hgt hlt
      have h3 := hD3 hgt hlt
      rw [hWcons]
      refine ble_antisymm ?_ (hd2t hlt)
      have hs₁ns : ble s₁ (rec g2 alpha beta) = true := by
        rw [h3]; exact fmin_ble_left _ _
      have hs₁S : ble s₁ (infVal val rest) = true := by
        rw [h3]; exact fmin_ble_right _ _
      have hs₁vg : ble s₁ (val g2) = true := by
        by_cases hc : ble beta (rec g2 alpha beta) = true
        · exact ble_trans hs₁ns (hU2 hc)
        · have hf : blt (rec g2 alpha beta) beta = true :=
            (blt_iff_not_ble _ _).2 (by simpa using hc)
          rw [← hU3 hans hf]
          exact hs₁ns
      exact ble_fmin hs₁vg hs₁S

/-- Fail-soft correctness of `alphabeta` against `minimax`: for any window
`alpha < beta`, the alpha-beta score `r` and the minimax score `v` satisfy
`r ≤ alpha → v ≤ r`, `beta ≤ r → r ≤ v`, and `alpha < r < beta → r = v`. -/
theorem alphabeta_failsoft (score : Game → FScore) :
    ∀ (d : Nat) (g : Game) (mx : Bool) (alpha beta : FScore),
      blt alpha beta = true →
      (ble (alphabeta score d g alpha beta mx).1 alpha = true →
        ble (minimax score d g mx).1 (alphabeta score d g alpha beta mx).1 =
          true) ∧
      (ble beta (alphabeta score d g alpha beta mx).1 = true →
        ble (alphabeta score d g alpha beta mx).1 (minimax score d g mx).1 =
          true) ∧
      (blt alpha (alphabeta score d g alpha beta mx).1 = true →
        blt (alphabeta score d g alpha beta mx).1 beta = true →
        (alphabeta score d g alpha beta mx).1 = (minimax score d g mx).1) := by
  intro d
  induction d with
  | zero =>
    intro g mx alpha beta _
    obtain ⟨cs⟩ := g
    rcases cs with _ | ⟨q, rest⟩
    · exact ⟨fun _ => ble_refl _, fun _ => ble_refl _, fun _ _ => rfl⟩
    · exact ⟨fun _ => ble_refl _, fun _ => ble_refl _, fun _ _ => rfl⟩
  | succ d ihd =>
    intro g mx alpha beta hab
    obtain ⟨cs⟩ := g
    rcases cs with _ | ⟨q, rest⟩
    · exact ⟨fun _ => ble_refl _, fun _ => ble_refl _, fun _ _ => rfl⟩
    · cases mx
      · -- minimizing ply
        obtain ⟨s₁, m₁, heq, hD1, hD2, hD3⟩ :=
          abMinNode (fun g' f c2 => (alphabeta score d g' f c2 true).1)
            (fun g' => (minimax score d g' true).1) alpha beta hab q rest
            (fun p _ c hc => ihd p.2 true alpha c hc)
        have habv :
            (alphabeta score (d + 1) (Game.node (q :: rest)) alpha beta
              false).1 = s₁ := by
          rw [alphabeta_succ_min, heq]
        have hmmv := minimax_val_min score d q rest
        rw [habv, hmmv]
        exact ⟨fun hle => hD2 (blt_of_ble_of_blt hle hab), hD1, hD3⟩
      · -- maximizing ply
        obtain ⟨s₁, m₁, heq, hC1, hC2, hC3, _, _, _⟩ :=
          abMaxNode (fun g' f c2 => (alphabeta score d g' f c2 false).1)
            (fun g' => (minimax score d g' false).1) alpha beta hab q rest
            (fun p _ f hf => ihd p.2 false f beta hf)
        have habv :
            (alphabeta score (d + 1) (Game.node (q :: rest)) alpha beta
              true).1 = s₁ := by
          rw [alphabeta_succ_max, heq]
        have hmmv := minimax_val_max score d q rest
        rw [habv, hmmv]
        exact ⟨hC1, fun hb => hC2 (blt_of_blt_of_ble hab hb), hC3⟩

/-- C1: for every game state and every depth, `alphabeta` with the full
window `(-inf, +inf)` and `maximizing_player = True` returns the same score
as `minimax` at the same depth with the same evaluation function, and the
move it returns attains that score (it is absent, the dead-end sentinel, or
a legal move whose subtree minimax value equals the root score), so the two
functions' chosen moves can differ only among moves attaining the same
score (the minimax move attains it by C4). -/
theorem claim_C1 (score : Game → FScore) (g : Game) (d : Nat) :
    (alphabeta score d g ninf pinf true).1 = (minimax score d g true).1 ∧
    abMoveOK score g d = true := by
  have hab : blt ninf pinf = true := rfl
  constructor
  · obtain ⟨hF1, hF2, hF3⟩ := alphabeta_failsoft score d g true ninf pinf hab
    by_cases h1 : ble (alphabeta score d g ninf pinf true).1 ninf = true
    · have hr := eq_ninf_of_ble_ninf h1
      have hv := hF1 h1
      rw [hr] at hv ⊢
      rw [eq_ninf_of_ble_ninf hv]
    · by_cases h2 : ble pinf (alphabeta score d g ninf pinf true).1 = true
      · have hr := eq_pinf_of_ble_pinf h2
        have hv := hF2 h2
        rw [hr] at hv ⊢
        rw [eq_pinf_of_ble_pinf hv]
      · exact hF3 ((blt_iff_not_ble _ _).2 (by simpa using h1))
          ((blt_iff_not_ble _ _).2 (by simpa using h2))
  · cases d with
    | zero =>
      obtain ⟨cs⟩ := g
      cases cs with
      | nil => rfl
      | cons q rest => rfl
    | succ e =>
      obtain ⟨cs⟩ := g
      cases cs with
      | nil => rfl
      | cons q rest =>
        obtain ⟨s₁, m₁, heq, hC1, hC2, hC3, ⟨gm, hgm⟩, hC5, hC6⟩ :=
          abMaxNode (fun g' f c2 => (alphabeta score e g' f c2 false).1)
            (fun g' => (minimax score e g' false).1) ninf pinf rfl q rest
            (fun p _ f hf => alphabeta_failsoft score e p.2 false f pinf hf)
        have habv : alphabeta score (e + 1) (Game.node (q :: rest)) ninf pinf
            true = (s₁, some m₁) := by
          rw [alphabeta_succ_max, heq]
        have hatt : ∃ g2, (m₁, g2) ∈ q :: rest ∧
            (minimax score e g2 false).1 = s₁ := by
          by_cases h2 : ble pinf s₁ = true
          · obtain ⟨g2, hmem, hble⟩ := hC6 h2
            refine ⟨g2, hmem, ?_⟩
            have hs : s₁ = pinf := eq_pinf_of_ble_pinf h2
            rw [hs] at hble
            rw [eq_pinf_of_ble_pinf hble, hs]
          · by_cases h1 : ble s₁ ninf = true
            · have hs : s₁ = ninf := eq_ninf_of_ble_ninf h1
              refine ⟨gm, hgm, ?_⟩
              have hvm : ble ((minimax score e gm false).1) s₁ = true :=
                ble_trans
                  (supVal_mem_ble (fun g' => (minimax score e g' false).1)
                    (q :: rest) (m₁, gm) hgm)
                  (hC1 h1)
              rw [hs] at hvm
              rw [eq_ninf_of_ble_ninf hvm, hs]
            · exact hC5 ((blt_iff_not_ble _ _).2 (by simpa using h1))
                ((blt_iff_not_ble _ _).2 (by simpa using h2))
        obtain ⟨g2, hmem, hval⟩ := hatt
        unfold abMoveOK
        rw [habv]
        show (m₁ == noMove ||
          (q :: rest).any (fun p => p.1 == m₁ &&
            ((minimax score e p.2 false).1 == s₁))) = true
        rw [Bool.or_eq_true]
        refine Or.inr ?_
        rw [List.any_eq_true]
        exact ⟨(m₁, g2), hmem, by simp [hval]⟩

/-- Witness for C10 at a concrete input: the chosen moves are `(0, 0)`,
a legal move of `wg1`. -/
theorem claim_C10_witness :
    (minimax wscore 1 wg1 true).2 = some ((0 : Int), (0 : Int)) ∧
    ((0 : Int), (0 : Int)) ∈ wg1.legalMoves := by
  obtain ⟨⟨m, hm, hmem⟩, _⟩ :=
    claim_C10 wscore 0 wg1 true ninf pinf (List.cons_ne_nil _ _)
  have hms : some m = some ((0 : Int), (0 : Int)) := by rw [← hm]; rfl
  cases hms
  exact ⟨hm, hmem⟩

/-- C9: every evaluation variant returns negative infinity when the player
has lost, positive infinity when the player has won (win and loss being
mutually exclusive per the board contract), and otherwise a finite value. -/
theorem claim_C9 (b : Board) (p : Player)
    (hexcl : ¬ (b.is_loser p = true ∧ b.is_winner p = true)) :
    (b.is_loser p = true →
      null_score b p = ninf ∧ open_move_score b p = ninf ∧
      improved_score b p = ninf ∧ more_improved_score b p = ninf ∧
      custom_score b p = ninf) ∧
    (b.is_winner p = true →
      null_score b p = pinf ∧ open_move_score b p = pinf ∧
      improved_score b p = pinf ∧ more_improved_score b p = pinf ∧
      custom_score b p = pinf) ∧
    (b.is_loser p = false → b.is_winner p = false →
      (∃ z, null_score b p = fin z) ∧ (∃ z, open_move_score b p = fin z) ∧
      (∃ z, improved_score b p = fin z) ∧
      (∃ z, more_improved_score b p = fin z) ∧
      (∃ z, custom_score b p = fin z)) := by
  refine ⟨?_, ?_, ?_⟩
  · intro hl
    simp [null_score, open_move_score, improved_score, more_improved_score,
      custom_score, mobility_score, overlap_score, winlose_score, hl,
      FScore.blt, FScore.add]
  · intro hw
    have hl : b.is_loser p = false := by
      cases h : b.is_loser p
      · rfl
      · exact absurd ⟨h, hw⟩ hexcl
    simp [null_score, open_move_score, improved_score, more_improved_score,
      custom_score, mobility_score, overlap_score, winlose_score, hl, hw,
      FScore.blt, FScore.add]
  · intro hl hw
    refine ⟨⟨0, by simp [null_score, hl, hw]⟩,
      ⟨(b.get_legal_moves p).length, by simp [open_move_score, hl, hw]⟩,
      ⟨((b.get_legal_moves p).length : Int) -
        ((b.get_legal_moves (b.get_opponent p)).length : Int),
        by simp [improved_score, hl, hw]⟩, ?_, ?_⟩
    · by_cases hc : b.active_player = p
      · exact ⟨((b.get_legal_moves p).length : Int) -
          ((b.get_legal_moves (b.get_opponent p)).length : Int),
          by simp [more_improved_score, hl, hw, hc]⟩
      · exact ⟨((((b.get_legal_moves p).filter
            (fun x => !((b.get_legal_moves (b.get_opponent p)).contains
              x))).length : Int) -
          ((b.get_legal_moves (b.get_opponent p)).length : Int)),
          by simp [more_improved_score, hl, hw, hc]⟩
    · have hm : ∃ z, mobility_score b p = fin z := by
        simp only [mobility_score, winlose_score, hl, hw]
        simp [FScore.blt, FScore.add]
        split
        · exact ⟨_, rfl⟩
        · split
          · exact ⟨_, rfl⟩
          · exact ⟨_, rfl⟩
      have ho : ∃ z, overlap_score b p = fin z := by
        simp only [overlap_score, winlose_score, hl, hw]
        simp [FScore.blt, FScore.add]
        split
        · split
          · exact ⟨_, rfl⟩
          · exact ⟨_, rfl⟩
        · split
          · exact ⟨_, rfl⟩
          · exact ⟨_, rfl⟩
      obtain ⟨z₁, hm⟩ := hm
      obtain ⟨z₂, ho⟩ := ho
      exact ⟨0 + z₁ + z₂, by simp [custom_score, hm, ho, FScore.add]⟩

/-- Witness for C9: on a concrete lost board every variant returns `ninf`
for the loser, and every variant returns `pinf` for the winner. -/
theorem claim_C9_witness :
    (null_score wboardL Player.one = ninf ∧
      open_move_score wboardL Player.one = ninf ∧
      improved_score wboardL Player.one = ninf ∧
      more_improved_score wboardL Player.one = ninf ∧
      custom_score wboardL Player.one = ninf) ∧
    (null_score wboardL Player.two = pinf ∧
      open_move_score wboardL Player.two = pinf ∧
      improved_score wboardL Player.two = pinf ∧
      more_improved_score wboardL Player.two = pinf ∧
      custom_score wboardL Player.two = pinf) :=
  ⟨(claim_C9 wboardL Player.one (by decide)).1 rfl,
   (claim_C9 wboardL Player.two (by decide)).2.1 rfl⟩

/-! ### A completed timed search computes the pure result -/
theorem mmLoopT_ok (recT : Game → Nat → Except Unit (FScore × Nat))
    (rec : Game → FScore) (better : FScore → FScore → Bool)
    (hrec : ∀ g' t s t', recT g' t = .ok (s, t') → s = rec g') :
    ∀ (l : List (Move × Game)) (acc : Option (FScore × Move)) (t : Nat)
      (res : Option (FScore × Move)) (t' : Nat),
      mmLoopT recT better l acc t = .ok (res, t') →
      res = mmLoop rec better l acc := by
  intro l
  induction l with
  | nil =>
    intro acc t res t' h
    cases h
    rfl
  | cons p rest ih =>
    obtain ⟨m, g'⟩ := p
    intro acc t res t' h
    simp only [mmLoopT] at h
    cases hr : recT g' t with
    | error e => rw [hr] at h; cases h
    | ok v =>
      obtain ⟨ns, t2⟩ := v
      rw [hr] at h
      have hns : ns = rec g' := hrec g' t ns t2 hr
      rw [hns] at h
      exact ih _ _ _ _ h

theorem minimaxT_ok (score : Game → FScore) (clock : Nat → Int) (thr : Int) :
    ∀ (d : Nat) (g : Game) (mx : Bool) (t : Nat) (r : FScore × Option Move)
      (t' : Nat), minimaxT score clock thr d g mx t = .ok (r, t') →
      r = minimax score d g mx := by
  intro d
  induction d with
  | zero =>
    intro g mx t r t' h
    obtain ⟨cs⟩ := g
    simp only [minimaxT] at h
    split at h
    · cases h
    · cases cs with
      | nil => cases h; rfl
      | cons q rest => cases h; rfl
  | succ d ih =>
    intro g mx t r t' h
    obtain ⟨cs⟩ := g
    simp only [minimaxT] at h
    split at h
    · cases h
    · cases cs with
      | nil => cases h; rfl
      | cons q rest =>
        cases mx
        · replace h : (match mmLoopT (fun g' t' =>
              match minimaxT score clock thr d g' true t' with
              | .error e => .error e
              | .ok (r, t2) => .ok (r.1, t2)) bmin (q :: rest) none (t + 1) with
            | .error e => (.error e : Except Unit ((FScore × Option Move) × Nat))
            | .ok (some sm, t2) => .ok ((sm.1, some sm.2), t2)
            | .ok (none, t2) =>
              .ok ((score (Game.node (q :: rest)), none), t2)) = .ok (r, t') := h
          cases hl : mmLoopT (fun g' t' =>
              match minimaxT score clock thr d g' true t' with
              | .error e => .error e
              | .ok (r, t2) => .ok (r.1, t2)) bmin (q :: rest) none (t + 1) with
          | error e => rw [hl] at h; cases h
          | ok v =>
            obtain ⟨res, t2⟩ := v
            rw [hl] at h
            have hres : res = mmLoop (fun g' => (minimax score d g' true).1)
                bmin (q :: rest) none := by
              refine mmLoopT_ok _ _ _ ?_ _ _ _ _ _ hl
              intro g' t3 s t4 hok
              cases hm : minimaxT score clock thr d g' true t3 with
              | error e => rw [hm] at hok; cases hok
              | ok v2 =>
                obtain ⟨r2, t5⟩ := v2
                rw [hm] at hok
                cases hok
                rw [ih g' true t3 r2 _ hm]
            cases res with
            | none => cases h; rw [minimax_succ_min, ← hres]
            | some sm => cases h; rw [minimax_succ_min, ← hres]
        · replace h : (match mmLoopT (fun g' t' =>
              match minimaxT score clock thr d g' false t' with
              | .error e => .error e
              | .ok (r, t2) => .ok (r.1, t2)) bmax (q :: rest) none (t + 1) with
            | .error e => (.error e : Except Unit ((FScore × Option Move) × Nat))
            | .ok (some sm, t2) => .ok ((sm.1, some sm.2), t2)
            | .ok (none, t2) =>
              .ok ((score (Game.node (q :: rest)), none), t2)) = .ok (r, t') := h
          cases hl : mmLoopT (fun g' t' =>
              match minimaxT score clock thr d g' false t' with
              | .error e => .error e
              | .ok (r, t2) => .ok (r.1, t2)) bmax (q :: rest) none (t + 1) with
          | error e => rw [hl] at h; cases h
          | ok v =>
            obtain ⟨res, t2⟩ := v
            rw [hl] at h
            have hres : res = mmLoop (fun g' => (minimax score d g' false).1)
                bmax (q :: rest) none := by
              refine mmLoopT_ok _ _ _ ?_ _ _ _ _ _ hl
              intro g' t3 s t4 hok
              cases hm : minimaxT score clock thr d g' false t3 with
              | error e => rw [hm] at hok; cases hok
              | ok v2 =>
                obtain ⟨r2, t5⟩ := v2
                rw [hm] at hok
                cases hok
                rw [ih g' false t3 r2 _ hm]
            cases res with
            | none => cases h; rw [minimax_succ_max, ← hres]
            | some sm => cases h; rw [minimax_succ_max, ← hres]

theorem abMaxLoopT_none_cons
    (recT : Game → FScore → FScore → Nat → Except Unit (FScore × Nat))
    (m : Move) (g2 : Game) (rest : List (Move × Game)) (f c : FScore)
    (t : Nat) :
    abMaxLoopT recT ((m, g2) :: rest) none f c t =
      match recT g2 f c t with
      | .error e => .error e
      | .ok (ns, t') =>
        if ble c ns then .ok (some (ns, m), t')
        else abMaxLoopT recT rest (some (ns, m)) (fmax f ns) c t' := rfl

theorem abMaxLoopT_cons_some
    (recT : Game → FScore → FScore → Nat → Except Unit (FScore × Nat))
    (m : Move) (g2 : Game) (rest : List (Move × Game)) (s₀ : FScore)
    (m₀ : Move) (f c : FScore) (t : Nat) :
    abMaxLoopT recT ((m, g2) :: rest) (some (s₀, m₀)) f c t =
      match recT g2 f c t with
      | .error e => .error e
      | .ok (ns, t') =>
        if ble c (if bmax ns s₀ then (ns, m) else (s₀, m₀)).1 then
          .ok (some (if bmax ns s₀ then (ns, m) else (s₀, m₀)), t')
        else abMaxLoopT recT rest (some (if bmax ns s₀ then (ns, m) else (s₀, m₀)))
          (fmax f (if bmax ns s₀ then (ns, m) else (s₀, m₀)).1) c t' := rfl

theorem abMinLoopT_none_cons
    (recT : Game → FScore → FScore → Nat → Except Unit (FScore × Nat))
    (m : Move) (g2 : Game) (rest : List (Move × Game)) (f c : FScore)
    (t : Nat) :
    abMinLoopT recT ((m, g2) :: rest) none f c t =
      match recT g2 f c t with
      | .error e => .error e
      | .ok (ns, t') =>
        if ble ns f then .ok (some (ns, m), t')
        else abMinLoopT recT rest (some (ns, m)) f (fmin c ns) t' := rfl

theorem abMinLoopT_cons_some
    (recT : Game → FScore → FScore → Nat → Except Unit (FScore × Nat))
    (m : Move) (g2 : Game) (rest : List (Move × Game)) (s₀ : FScore)
    (m₀ : Move) (f c : FScore) (t : Nat) :
    abMinLoopT recT ((m, g2) :: rest) (some (s₀, m₀)) f c t =
      match recT g2 f c t with
      | .error e => .error e
      | .ok (ns, t') =>
        if ble (if bmin ns s₀ then (ns, m) else (s₀, m₀)).1 f then
          .ok (some (if bmin ns s₀ then (ns, m) else (s₀, m₀)), t')
        else abMinLoopT recT rest (some (if bmin ns s₀ then (ns, m) else (s₀, m₀)))
          f (fmin c (if bmin ns s₀ then (ns, m) else (s₀, m₀)).1) t' := rfl

theorem abMaxLoopT_ok
    (recT : Game → FScore → FScore → Nat → Except Unit (FScore × Nat))
    (rec : Game → FScore → FScore → FScore)
    (hrec : ∀ g' f c t s t', recT g' f c t = .ok (s, t') → s = rec g' f c) :
    ∀ (l : List (Move × Game)) (acc : Option (FScore × Move)) (f c : FScore)
      (t : Nat) (res : Option (FScore × Move)) (t' : Nat),
      abMaxLoopT recT l acc f c t = .ok (res, t') →
      res = abMaxLoop rec l acc f c := by
  intro l
  induction l with
  | nil =>
    intro acc f c t res t' h
    cases h
    rfl
  | cons p rest ih =>
    obtain ⟨m, g2⟩ := p
    intro acc f c t res t' h
    cases acc with
    | none =>
      rw [abMaxLoopT_none_cons] at h
      cases hr : recT g2 f c t with
      | error e => rw [hr] at h; cases h
      | ok v =>
        obtain ⟨ns, t2⟩ := v
        rw [hr] at h
        replace h : (if ble c ns then Except.ok (some (ns, m), t2)
            else abMaxLoopT recT rest (some (ns, m)) (fmax f ns) c t2) =
            .ok (res, t') := h
        rw [hrec g2 f c t ns t2 hr] at h
        by_cases hc : ble c (rec g2 f c) = true
        · rw [if_pos hc] at h
          cases h
          rw [abMaxLoop_none_cons, if_pos hc]
        · rw [if_neg hc] at h
          rw [abMaxLoop_none_cons, if_neg hc]
          exact ih _ _ _ _ _ _ h
    | some sm =>
      obtain ⟨s₀, m₀⟩ := sm
      rw [abMaxLoopT_cons_some] at h
      cases hr : recT g2 f c t with
      | error e => rw [hr] at h; cases h
      | ok v =>
        obtain ⟨ns, t2⟩ := v
        rw [hr] at h
        replace h : (if ble c (if bmax ns s₀ then (ns, m) else (s₀, m₀)).1 then
            Except.ok (some (if bmax ns s₀ then (ns, m) else (s₀, m₀)), t2)
          else abMaxLoopT recT rest
            (some (if bmax ns s₀ then (ns, m) else (s₀, m₀)))
            (fmax f (if bmax ns s₀ then (ns, m) else (s₀, m₀)).1) c t2) =
            .ok (res, t') := h
        rw [hrec g2 f c t ns t2 hr] at h
        rw [abMaxLoop_cons]
        by_cases hc : ble c (if bmax (rec g2 f c) s₀ then (rec g2 f c, m)
            else (s₀, m₀)).1 = true
        · rw [if_pos hc] at h
          cases h
          rw [if_pos hc]
        · rw [if_neg hc] at h
          rw [if_neg hc]
          exact ih _ _ _ _ _ _ h

theorem abMinLoopT_ok
    (recT : Game → FScore → FScore → Nat → Except Unit (FScore × Nat))
    (rec : Game → FScore → FScore → FScore)
    (hrec : ∀ g' f c t s t', recT g' f c t = .ok (s, t') → s = rec g' f c) :
    ∀ (l : List (Move × Game)) (acc : Option (FScore × Move)) (f c : FScore)
      (t : Nat) (res : Option (FScore × Move)) (t' : Nat),
      abMinLoopT recT l acc f c t = .ok (res, t') →
      res = abMinLoop rec l acc f c := by
  intro l
  induction l with
  | nil =>
    intro acc f c t res t' h
    cases h
    rfl
  | cons p rest ih =>
    obtain ⟨m, g2⟩ := p
    intro acc f c t res t' h
    cases acc with
    | none =>
      rw [abMinLoopT_none_cons] at h
      cases hr : recT g2 f c t with
      | error e => rw [hr] at h; cases h
      | ok v =>
        obtain ⟨ns, t2⟩ := v
        rw [hr] at h
        replace h : (if ble ns f then Except.ok (some (ns, m), t2)
            else abMinLoopT recT rest (some (ns, m)) f (fmin c ns) t2) =
            .ok (res, t') := h
        rw [hrec g2 f c t ns t2 hr] at h
        by_cases hc : ble (rec g2 f c) f = true
        · rw [if_pos hc] at h
          cases h
          rw [abMinLoop_none_cons, if_pos hc]
        · rw [if_neg hc] at h
          rw [abMinLoop_none_cons, if_neg hc]
          exact ih _ _ _ _ _ _ h
    | some sm =>
      obtain ⟨s₀, m₀⟩ := sm
      rw [abMinLoopT_cons_some] at h
      cases hr : recT g2 f c t with
      | error e => rw [hr] at h; cases h
      | ok v =>
        obtain ⟨ns, t2⟩ := v
        rw [hr] at h
        replace h : (if ble (if bmin ns s₀ then (ns, m) else (s₀, m₀)).1 f then
            Except.ok (some (if bmin ns s₀ then (ns, m) else (s₀, m₀)), t2)
          else abMinLoopT recT rest
            (some (if bmin ns s₀ then (ns, m) else (s₀, m₀))) f
            (fmin c (if bmin ns s₀ then (ns, m) else (s₀, m₀)).1) t2) =
            .ok (res, t') := h
        rw [hrec g2 f c t ns t2 hr] at h
        rw [abMinLoop_cons]
        by_cases hc : ble (if bmin (rec g2 f c) s₀ then (rec g2 f c, m)
            else (s₀, m₀)).1 f = true
        · rw [if_pos hc] at h
          cases h
          rw [if_pos hc]
        · rw [if_neg hc] at h
          rw [if_neg hc]
          exact ih _ _ _ _ _ _ h

theorem alphabetaT_ok (score : Game → FScore) (clock : Nat → Int) (thr : Int) :
    ∀ (d : Nat) (g : Game) (alpha beta : FScore) (mx : Bool) (t : Nat)
      (r : FScore × Option Move) (t' : Nat),
      alphabetaT score clock thr d g alpha beta mx t = .ok (r, t') →
      r = alphabeta score d g alpha beta mx := by
  intro d
  induction d with
  | zero =>
    intro g alpha beta mx t r t' h
    obtain ⟨cs⟩ := g
    simp only [alphabetaT] at h
    split at h
    · cases h
    · cases cs with
      | nil => cases h; rfl
      | cons q rest => cases h; rfl
  | succ d ih =>
    intro g alpha beta mx t r t' h
    obtain ⟨cs⟩ := g
    simp only [alphabetaT] at h
    split at h
    · cases h
    · cases cs with
      | nil => cases h; rfl
      | cons q rest =>
        cases mx
        · replace h : (match abMinLoopT (fun g' f c2 t' =>
              match alphabetaT score clock thr d g' f c2 true t' with
              | .error e => .error e
              | .ok (r, t2) => .ok (r.1, t2)) (q :: rest) none alpha beta
              (t + 1) with
            | .error e => (.error e : Except Unit ((FScore × Option Move) × Nat))
            | .ok (some sm, t2) => .ok ((sm.1, some sm.2), t2)
            | .ok (none, t2) =>
              .ok ((score (Game.node (q :: rest)), none), t2)) = .ok (r, t') := h
          cases hl : abMinLoopT (fun g' f c2 t' =>
              match alphabetaT score clock thr d g' f c2 true t' with
              | .error e => .error e
              | .ok (r, t2) => .ok (r.1, t2)) (q :: rest) none alpha beta
              (t + 1) with
          | error e => rw [hl] at h; cases h
          | ok v =>
            obtain ⟨res, t2⟩ := v
            rw [hl] at h
            have hres : res = abMinLoop
                (fun g' f c2 => (alphabeta score d g' f c2 true).1)
                (q :: rest) none alpha beta := by
              refine abMinLoopT_ok _ _ ?_ _ _ _ _ _ _ _ hl
              intro g' f2 c2 t3 s t4 hok
              cases hm : alphabetaT score clock thr d g' f2 c2 true t3 with
              | error e => rw [hm] at hok; cases hok
              | ok v2 =>
                obtain ⟨r2, t5⟩ := v2
                rw [hm] at hok
                cases hok
                rw [ih g' f2 c2 true t3 r2 _ hm]
            cases res with
            | none => cases h; rw [alphabeta_succ_min, ← hres]
            | some sm => cases h; rw [alphabeta_succ_min, ← hres]
        · replace h : (match abMaxLoopT (fun g' f c2 t' =>
              match alphabetaT score clock thr d g' f c2 false t' with
              | .error e => .error e
              | .ok (r, t2) => .ok (r.1, t2)) (q :: rest) none alpha beta
              (t + 1) with
            | .error e => (.error e : Except Unit ((FScore × Option Move) × Nat))
            | .ok (some sm, t2) => .ok ((sm.1, some sm.2), t2)
            | .ok (none, t2) =>
              .ok ((score (Game.node (q :: rest)), none), t2)) = .ok (r, t') := h
          cases hl : abMaxLoopT (fun g' f c2 t' =>
              match alphabetaT score clock thr d g' f c2 false t' with
              | .error e => .error e
              | .ok (r, t2) => .ok (r.1, t2)) (q :: rest) none alpha beta
              (t + 1) with
          | error e => rw [hl] at h; cases h
          | ok v =>
            obtain ⟨res, t2⟩ := v
            rw [hl] at h
            have hres : res = abMaxLoop
                (fun g' f c2 => (alphabeta score d g' f c2 false).1)
                (q :: rest) none alpha beta := by
              refine abMaxLoopT_ok _ _ ?_ _ _ _ _ _ _ _ hl
              intro g' f2 c2 t3 s t4 hok
              cases hm : alphabetaT score clock thr d g' f2 c2 false t3 with
              | error e => rw [hm] at hok; cases hok
              | ok v2 =>
                obtain ⟨r2, t5⟩ := v2
                rw [hm] at hok
                cases hok
                rw [ih g' f2 c2 false t3 r2 _ hm]
            cases res with
            | none => cases h; rw [alphabeta_succ_max, ← hres]
            | some sm => cases h; rw [alphabeta_succ_max, ← hres]

theorem dosearchT_ok (score : Game → FScore) (clock : Nat → Int) (thr : Int)
    (isMM : Bool) (g : Game) (d : Nat) (t : Nat) (r : FScore × Option Move)
    (t' : Nat) (h : dosearchT score clock thr isMM g d t = .ok (r, t')) :
    r = dosearch score isMM g d := by
  cases isMM
  · simp only [dosearchT, Bool.false_eq_true, if_false] at h
    simp only [dosearch, Bool.false_eq_true, if_false]
    exact alphabetaT_ok score clock thr d g ninf pinf true t r t' h
  · simp only [dosearchT, if_true] at h
    simp only [dosearch, if_true]
    exact minimaxT_ok score clock thr d g true t r t' h

/-! ### With a clock that never drops below the threshold, timed search
completes -/
theorem mmLoopT_progress (recT : Game → Nat → Except Unit (FScore × Nat))
    (better : FScore → FScore → Bool)
    (hrec : ∀ g' t, ∃ s t', recT g' t = .ok (s, t')) :
    ∀ (l : List (Move × Game)) (acc : Option (FScore × Move)) (t : Nat),
      ∃ res t', mmLoopT recT better l acc t = .ok (res, t') := by
  intro l
  induction l with
  | nil => intro acc t; exact ⟨acc, t, rfl⟩
  | cons p rest ih =>
    obtain ⟨m, g'⟩ := p
    intro acc t
    obtain ⟨s, t', hr⟩ := hrec g' t
    simp only [mmLoopT, hr]
    exact ih _ _

theorem minimaxT_progress (score : Game → FScore) (clock : Nat → Int)
    (thr : Int) (hclock : ∀ u, ¬ clock u < thr) :
    ∀ (d : Nat) (g : Game) (mx : Bool) (t : Nat),
      ∃ r t', minimaxT score clock thr d g mx t = .ok (r, t') := by
  intro d
  induction d with
  | zero =>
    intro g mx t
    obtain ⟨cs⟩ := g
    cases cs with
    | nil => exact ⟨_, _, by simp only [minimaxT, if_neg (hclock t)]; rfl⟩
    | cons q rest =>
      exact ⟨_, _, by simp only [minimaxT, if_neg (hclock t)]; rfl⟩
  | succ d ih =>
    intro g mx t
    obtain ⟨cs⟩ := g
    cases cs with
    | nil => exact ⟨_, _, by simp only [minimaxT, if_neg (hclock t)]; rfl⟩
    | cons q rest =>
      cases mx
      · obtain ⟨res, t', hl⟩ := mmLoopT_progress (fun g' t' =>
            match minimaxT score clock thr d g' true t' with
            | .error e => .error e
            | .ok (r, t2) => .ok (r.1, t2)) bmin
          (fun g' t0 => by
            obtain ⟨r0, t1, hm⟩ := ih g' true t0
            refine ⟨r0.1, t1, ?_⟩
            show (match minimaxT score clock thr d g' true t0 with
              | Except.error e => (Except.error e : Except Unit (FScore × Nat))
              | Except.ok (r, t2) => Except.ok (r.1, t2)) =
              Except.ok (r0.1, t1)
            rw [hm])
          (q :: rest) none (t + 1)
        cases res with
        | none =>
          refine ⟨(score (Game.node (q :: rest)), none), t', ?_⟩
          simp only [minimaxT, if_neg (hclock t)]
          show (match mmLoopT (fun g' t' =>
              match minimaxT score clock thr d g' true t' with
              | .error e => .error e
              | .ok (r, t2) => .ok (r.1, t2)) bmin (q :: rest) none (t + 1) with
            | .error e => (.error e : Except Unit ((FScore × Option Move) × Nat))
            | .ok (some sm, t2) => .ok ((sm.1, some sm.2), t2)
            | .ok (none, t2) =>
              .ok ((score (Game.node (q :: rest)), none), t2)) = _
          rw [hl]
        | some sm =>
          refine ⟨(sm.1, some sm.2), t', ?_⟩
          simp only [minimaxT, if_neg (hclock t)]
          show (match mmLoopT (fun g' t' =>
              match minimaxT score clock thr d g' true t' with
              | .error e => .error e
              | .ok (r, t2) => .ok (r.1, t2)) bmin (q :: rest) none (t + 1) with
            | .error e => (.error e : Except Unit ((FScore × Option Move) × Nat))
            | .ok (some sm, t2) => .ok ((sm.1, some sm.2), t2)
            | .ok (none, t2) =>
              .ok ((score (Game.node (q :: rest)), none), t2)) = _
          rw [hl]
      · obtain ⟨res, t', hl⟩ := mmLoopT_progress (fun g' t' =>
            match minimaxT score clock thr d g' false t' with
            | .error e => .error e
            | .ok (r, t2) => .ok (r.1, t2)) bmax
          (fun g' t0 => by
            obtain ⟨r0, t1, hm⟩ := ih g' false t0
            refine ⟨r0.1, t1, ?_⟩
            show (match minimaxT score clock thr d g' false t0 with
              | Except.error e => (Except.error e : Except Unit (FScore × Nat))
              | Except.ok (r, t2) => Except.ok (r.1, t2)) =
              Except.ok (r0.1, t1)
            rw [hm])
          (q :: rest) none (t + 1)
        cases res with
        | none =>
          refine ⟨(score (Game.node (q :: rest)), none), t', ?_⟩
          simp only [minimaxT, if_neg (hclock t)]
          show (match mmLoopT (fun g' t' =>
              match minimaxT score clock thr d g' false t' with
              | .error e => .error e
              | .ok (r, t2) => .ok (r.1, t2)) bmax (q :: rest) none (t + 1) with
            | .error e => (.error e : Except Unit ((FScore × Option Move) × Nat))
            | .ok (some sm, t2) => .ok ((sm.1, some sm.2), t2)
            | .ok (none, t2) =>
              .ok ((score (Game.node (q :: rest)), none), t2)) = _
          rw [hl]
        | some sm =>
          refine ⟨(sm.1, some sm.2), t', ?_⟩
          simp only [minimaxT, if_neg (hclock t)]
          show (match mmLoopT (fun g' t' =>
              match minimaxT score clock thr d g' false t' with
              | .error e => .error e
              | .ok (r, t2) => .ok (r.1, t2)) bmax (q :: rest) none (t + 1) with
            | .error e => (.error e : Except Unit ((FScore × Option Move) × Nat))
            | .ok (some sm, t2) => .ok ((sm.1, some sm.2), t2)
            | .ok (none, t2) =>
              .ok ((score (Game.node (q :: rest)), none), t2)) = _
          rw [hl]

theorem abMaxLoopT_progress
    (recT : Game → FScore → FScore → Nat → Except Unit (FScore × Nat))
    (hrec : ∀ g' f c t, ∃ s t', recT g' f c t = .ok (s, t')) :
    ∀ (l : List (Move × Game)) (acc : Option (FScore × Move)) (f c : FScore)
      (t : Nat), ∃ res t', abMaxLoopT recT l acc f c t = .ok (res, t') := by
  intro l
  induction l with
  | nil => intro acc f c t; exact ⟨acc, t, rfl⟩
  | cons p rest ih =>
    obtain ⟨m, g'⟩ := p
    intro acc f c t
    obtain ⟨s, t', hr⟩ := hrec g' f c t
    simp only [abMaxLoopT, hr]
    split
    · exact ⟨_, _, rfl⟩
    · exact ih _ _ _ _

theorem abMinLoopT_progress
    (recT : Game → FScore → FScore → Nat → Except Unit (FScore × Nat))
    (hrec : ∀ g' f c t, ∃ s t', recT g' f c t = .ok (s, t')) :
    ∀ (l : List (Move × Game)) (acc : Option (FScore × Move)) (f c : FScore)
      (t : Nat), ∃ res t', abMinLoopT recT l acc f c t = .ok (res, t') := by
  intro l
  induction l with
  | nil => intro acc f c t; exact ⟨acc, t, rfl⟩
  | cons p rest ih =>
    obtain ⟨m, g'⟩ := p
    intro acc f c t
    obtain ⟨s, t', hr⟩ := hrec g' f c t
    simp only [abMinLoopT, hr]
    split
    · exact ⟨_, _, rfl⟩
    · exact ih _ _ _ _

theorem alphabetaT_progress (score : Game → FScore) (clock : Nat → Int)
    (thr : Int) (hclock : ∀ u, ¬ clock u < thr) :
    ∀ (d : Nat) (g : Game) (alpha beta : FScore) (mx : Bool) (t : Nat),
      ∃ r t', alphabetaT score clock thr d g alpha beta mx t = .ok (r, t') := by
  intro d
  induction d with
  | zero =>
    intro g alpha beta mx t
    obtain ⟨cs⟩ := g
    cases cs with
    | nil => exact ⟨_, _, by simp only [alphabetaT, if_neg (hclock t)]; rfl⟩
    | cons q rest =>
      exact ⟨_, _, by simp only [alphabetaT, if_neg (hclock t)]; rfl⟩
  | succ d ih =>
    intro g alpha beta mx t
    obtain ⟨cs⟩ := g
    cases cs with
    | nil => exact ⟨_, _, by simp only [alphabetaT, if_neg (hclock t)]; rfl⟩
    | cons q rest =>
      cases mx
      · obtain ⟨res, t', hl⟩ := abMinLoopT_progress (fun g' f c2 t' =>
            match alphabetaT score clock thr d g' f c2 true t' with
            | .error e => .error e
            | .ok (r, t2) => .ok (r.1, t2))
          (fun g' f c2 t0 => by
            obtain ⟨r0, t1, hm⟩ := ih g' f c2 true t0
            refine ⟨r0.1, t1, ?_⟩
            show (match alphabetaT score clock thr d g' f c2 true t0 with
              | Except.error e => (Except.error e : Except Unit (FScore × Nat))
              | Except.ok (r, t2) => Except.ok (r.1, t2)) =
              Except.ok (r0.1, t1)
            rw [hm])
          (q :: rest) none alpha beta (t + 1)
        cases res with
        | none =>
          refine ⟨(score (Game.node (q :: rest)), none), t', ?_⟩
          simp only [alphabetaT, if_neg (hclock t)]
          show (match abMinLoopT (fun g' f c2 t' =>
              match alphabetaT score clock thr d g' f c2 true t' with
              | .error e => .error e
              | .ok (r, t2) => .ok (r.1, t2)) (q :: rest) none alpha beta
              (t + 1) with
            | .error e => (.error e : Except Unit ((FScore × Option Move) × Nat))
            | .ok (some sm, t2) => .ok ((sm.1, some sm.2), t2)
            | .ok (none, t2) =>
              .ok ((score (Game.node (q :: rest)), none), t2)) = _
          rw [hl]
        | some sm =>
          refine ⟨(sm.1, some sm.2), t', ?_⟩
          simp only [alphabetaT, if_neg (hclock t)]
          show (match abMinLoopT (fun g' f c2 t' =>
              match alphabetaT score clock thr d g' f c2 true t' with
              | .error e => .error e
              | .ok (r, t2) => .ok (r.1, t2)) (q :: rest) none alpha beta
              (t + 1) with
            | .error e => (.error e : Except Unit ((FScore × Option Move) × Nat))
            | .ok (some sm, t2) => .ok ((sm.1, some sm.2), t2)
            | .ok (none, t2) =>
              .ok ((score (Game.node (q :: rest)), none), t2)) = _
          rw [hl]
      · obtain ⟨res, t', hl⟩ := abMaxLoopT_progress (fun g' f c2 t' =>
            match alphabetaT score clock thr d g' f c2 false t' with
            | .error e => .error e
            | .ok (r, t2) => .ok (r.1, t2))
          (fun g' f c2 t0 => by
            obtain ⟨r0, t1, hm⟩ := ih g' f c2 false t0
            refine ⟨r0.1, t1, ?_⟩
            show (match alphabetaT score clock thr d g' f c2 false t0 with
              | Except.error e => (Except.error e : Except Unit (FScore × Nat))
              | Except.ok (r, t2) => Except.ok (r.1, t2)) =
              Except.ok (r0.1, t1)
            rw [hm])
          (q :: rest) none alpha beta (t + 1)
        cases res with
        | none =>
          refine ⟨(score (Game.node (q :: rest)), none), t', ?_⟩
          simp only [alphabetaT, if_neg (hclock t)]
          show (match abMaxLoopT (fun g' f c2 t' =>
              match alphabetaT score clock thr d g' f c2 false t' with
              | .error e => .error e
              | .ok (r, t2) => .ok (r.1, t2)) (q :: rest) none alpha beta
              (t + 1) with
            | .error e => (.error e : Except Unit ((FScore × Option Move) × Nat))
            | .ok (some sm, t2) => .ok ((sm.1, some sm.2), t2)
            | .ok (none, t2) =>
              .ok ((score (Game.node (q :: rest)), none), t2)) = _
          rw [hl]
        | some sm =>
          refine ⟨(sm.1, some sm.2), t', ?_⟩
          simp only [alphabetaT, if_neg (hclock t)]
          show (match abMaxLoopT (fun g' f c2 t' =>
              match alphabetaT score clock thr d g' f c2 false t' with
              | .error e => .error e
              | .ok (r, t2) => .ok (r.1, t2)) (q :: rest) none alpha beta
              (t + 1) with
            | .error e => (.error e : Except Unit ((FScore × Option Move) × Nat))
            | .ok (some sm, t2) => .ok ((sm.1, some sm.2), t2)
            | .ok (none, t2) =>
              .ok ((score (Game.node (q :: rest)), none), t2)) = _
          rw [hl]

theorem dosearchT_progress (score : Game → FScore) (clock : Nat → Int)
    (thr : Int) (hclock : ∀ u, ¬ clock u < thr) (isMM : Bool) (g : Game)
    (d : Nat) (t : Nat) :
    ∃ r t', dosearchT score clock thr isMM g d t = .ok (r, t') := by
  cases isMM
  · simp only [dosearchT, Bool.false_eq_true, if_false]
    exact alphabetaT_progress score clock thr hclock d g ninf pinf true t
  · simp only [dosearchT, if_true]
    exact minimaxT_progress score clock thr hclock d g true t

theorem iterLoopT_cons (score : Game → FScore) (clock : Nat → Int) (thr : Int)
    (isMM quiessant : Bool) (g : Game) (d : Nat) (rest : List Nat)
    (window : List (FScore × Option Move)) (best : Option FScore × Option Move)
    (t : Nat) :
    iterLoopT score clock thr isMM quiessant g (d :: rest) window best t =
      match dosearchT score clock thr isMM g d t with
      | .error _ => ⟨best, [], some d⟩
      | .ok ((s, mo), t') =>
        if convStop quiessant (push3 window (s, mo)) s mo then
          ⟨(some s, mo), [(d, s, mo)], none⟩
        else if clock t' < thr then ⟨(some s, mo), [(d, s, mo)], none⟩
        else
          ⟨(iterLoopT score clock thr isMM quiessant g rest
              (push3 window (s, mo)) (some s, mo) (t' + 1)).final,
            (d, s, mo) ::
              (iterLoopT score clock thr isMM quiessant g rest
                (push3 window (s, mo)) (some s, mo) (t' + 1)).trace,
            (iterLoopT score clock thr isMM quiessant g rest
              (push3 window (s, mo)) (some s, mo) (t' + 1)).aborted⟩ := rfl

/-- The final move of the loop is the move of the last completed depth, or
the initial committed move when no depth completed. -/
theorem iter_final_last (score : Game → FScore) (clock : Nat → Int)
    (thr : Int) (isMM quiessant : Bool) (g : Game) :
    ∀ (ds : List Nat) (window : List (FScore × Option Move))
      (best : Option FScore × Option Move) (t : Nat),
      (iterLoopT score clock thr isMM quiessant g ds window best t).final.2 =
        ((iterLoopT score clock thr isMM quiessant g ds window best t).trace.map
          (fun r => r.2.2)).getLastD best.2 := by
  intro ds
  induction ds with
  | nil => intro window best t; rfl
  | cons d rest ih =>
    intro window best t
    cases hds : dosearchT score clock thr isMM g d t with
    | error e =>
      have hstep : iterLoopT score clock thr isMM quiessant g (d :: rest)
          window best t = ⟨best, [], some d⟩ := by
        rw [iterLoopT_cons, hds]
      rw [hstep]
      rfl
    | ok v =>
      obtain ⟨⟨s, mo⟩, t'⟩ := v
      have hstep : iterLoopT score clock thr isMM quiessant g (d :: rest)
          window best t =
          (if convStop quiessant (push3 window (s, mo)) s mo then
            ⟨(some s, mo), [(d, s, mo)], none⟩
          else if clock t' < thr then ⟨(some s, mo), [(d, s, mo)], none⟩
          else
            ⟨(iterLoopT score clock thr isMM quiessant g rest
                (push3 window (s, mo)) (some s, mo) (t' + 1)).final,
              (d, s, mo) ::
                (iterLoopT score clock thr isMM quiessant g rest
                  (push3 window (s, mo)) (some s, mo) (t' + 1)).trace,
              (iterLoopT score clock thr isMM quiessant g rest
                (push3 window (s, mo)) (some s, mo) (t' + 1)).aborted⟩) := by
        rw [iterLoopT_cons, hds]
      by_cases h1 : convStop quiessant (push3 window (s, mo)) s mo = true
      · rw [if_pos h1] at hstep
        rw [hstep]
        rfl
      · rw [if_neg h1] at hstep
        by_cases h2 : clock t' < thr
        · rw [if_pos h2] at hstep
          rw [hstep]
          rfl
        · rw [if_neg h2] at hstep
          rw [hstep]
          show (iterLoopT score clock thr isMM quiessant g rest
              (push3 window (s, mo)) (some s, mo) (t' + 1)).final.2 = _
          rw [ih (push3 window (s, mo)) (some s, mo) (t' + 1)]
          rw [List.map_cons, List.getLastD_cons]

/-- Every property of the committed move that the seed has and that every
completed search result has is a property of the final move. -/
theorem iter_final_prop (score : Game → FScore) (clock : Nat → Int)
    (thr : Int) (isMM quiessant : Bool) (g : Game) (Q : Option Move → Prop) :
    ∀ (ds : List Nat) (window : List (FScore × Option Move))
      (best : Option FScore × Option Move) (t : Nat),
      (∀ d ∈ ds, ∀ t0 r t1,
        dosearchT score clock thr isMM g d t0 = .ok (r, t1) → Q r.2) →
      Q best.2 →
      Q (iterLoopT score clock thr isMM quiessant g ds window best t).final.2 := by
  intro ds
  induction ds with
  | nil => intro window best t _ hb; exact hb
  | cons d rest ih =>
    intro window best t hsearch hb
    cases hds : dosearchT score clock thr isMM g d t with
    | error e =>
      have hstep : iterLoopT score clock thr isMM quiessant g (d :: rest)
          window best t = ⟨best, [], some d⟩ := by
        rw [iterLoopT_cons, hds]
      rw [hstep]
      exact hb
    | ok v =>
      obtain ⟨⟨s, mo⟩, t'⟩ := v
      have hmo : Q mo :=
        hsearch d (List.mem_cons_self _ _) t (s, mo) t' hds
      have hstep : iterLoopT score clock thr isMM quiessant g (d :: rest)
          window best t =
          (if convStop quiessant (push3 window (s, mo)) s mo then
            ⟨(some s, mo), [(d, s, mo)], none⟩
          else if clock t' < thr then ⟨(some s, mo), [(d, s, mo)], none⟩
          else
            ⟨(iterLoopT score clock thr isMM quiessant g rest
                (push3 window (s, mo)) (some s, mo) (t' + 1)).final,
              (d, s, mo) ::
                (iterLoopT score clock thr isMM quiessant g rest
                  (push3 window (s, mo)) (some s, mo) (t' + 1)).trace,
              (iterLoopT score clock thr isMM quiessant g rest
                (push3 window (s, mo)) (some s, mo) (t' + 1)).aborted⟩) := by
        rw [iterLoopT_cons, hds]
      by_cases h1 : convStop quiessant (push3 window (s, mo)) s mo = true
      · rw [if_pos h1] at hstep
        rw [hstep]
        exact hmo
      · rw [if_neg h1] at hstep
        by_cases h2 : clock t' < thr
        · rw [if_pos h2] at hstep
          rw [hstep]
          exact hmo
        · rw [if_neg h2] at hstep
          rw [hstep]
          exact ih (push3 window (s, mo)) (some s, mo) (t' + 1)
            (fun d2 hd2 => hsearch d2 (List.mem_cons_of_mem _ hd2)) hmo

/-- A completed depth-`e+1` search on a state with legal moves returns a
move from the state's legal-move list. -/
theorem dosearch_move_legal (score : Game → FScore) (isMM : Bool) (g : Game)
    (e : Nat) (h : g.children ≠ []) :
    ∃ m, (dosearch score isMM g (e + 1)).2 = some m ∧ m ∈ g.legalMoves := by
  cases isMM
  · simp only [dosearch, Bool.false_eq_true, if_false]
    obtain ⟨cs⟩ := g
    match cs, h with
    | q :: rest, _ =>
      obtain ⟨sm, hsm, g2, hg2⟩ :=
        abMaxLoop_none_mem
          (fun g' f c2 => (alphabeta score e g' f c2 false).1) q rest ninf pinf
      exact ⟨sm.2, by rw [alphabeta_succ_max, hsm],
        List.mem_map_of_mem Prod.fst hg2⟩
  · simp only [dosearch, if_true]
    obtain ⟨p, hf, hl⟩ := minimax_internal score e g true h
    exact ⟨p.1, by rw [hl],
      List.mem_map_of_mem Prod.fst (List.mem_of_find?_eq_some hf)⟩

/-- A search on a dead-end state returns the static evaluation and the
`(-1, -1)` sentinel, at every depth. -/
theorem dosearch_deadend (score : Game → FScore) (isMM : Bool) (g : Game)
    (d : Nat) (h : g.children = []) :
    dosearch score isMM g d = (score g, some noMove) := by
  obtain ⟨cs⟩ := g
  have hcs : cs = [] := h
  subst hcs
  cases isMM <;> cases d <;> rfl

theorem push3_length_le (w : List (FScore × Option Move))
    (x : FScore × Option Move) (h : w.length ≤ 3) :
    (push3 w x).length ≤ 3 := by
  by_cases h2 : w.length < 3
  · rw [push3, if_pos h2]
    simp only [List.length_append, List.length_cons, List.length_nil]
    omega
  · rw [push3, if_neg h2]
    simp only [List.length_append, List.length_tail, List.length_cons,
      List.length_nil]
    omega

theorem push3_ends (w : List (FScore × Option Move))
    (x : FScore × Option Move) : ∃ w2, push3 w x = w2 ++ [x] := by
  by_cases h : w.length < 3
  · exact ⟨w, by rw [push3, if_pos h]⟩
  · exact ⟨w.tail, by rw [push3, if_neg h]⟩

theorem push3_ends2 (w2 : List (FScore × Option Move))
    (q x : FScore × Option Move) :
    ∃ w3, push3 (w2 ++ [q]) x = w3 ++ [q, x] := by
  by_cases h : (w2 ++ [q]).length < 3
  · exact ⟨w2, by rw [push3, if_pos h]; simp⟩
  · cases w2 with
    | nil => exact absurd (by simp) h
    | cons o w4 =>
      refine ⟨w4, ?_⟩
      rw [push3, if_neg h]
      simp

/-- Once the deque ends in two results whose moves agree with the move of
the depth that just completed, the convergence stop fires. -/
theorem convStop_fires (w2 : List (FScore × Option Move))
    (p q : FScore × Option Move) (s : FScore) (mo : Option Move)
    (hwin : (w2 ++ [p, q]).length ≤ 3) (hp : p.2 = mo) (hq : q.2 = mo) :
    convStop true (push3 (w2 ++ [p, q]) (s, mo)) s mo = true := by
  match w2 with
  | [] =>
    rw [push3, if_pos (by simp)]
    simp [convStop, hp, hq]
  | [o] =>
    rw [push3, if_neg (by simp)]
    simp [convStop, hp, hq]
  | o1 :: o2 :: w4 =>
    exfalso
    simp only [List.length_append, List.length_cons, List.length_nil] at hwin
    omega

/-- The depths recorded in the trace are the first `trace.length` entries
of the depth list, in order. -/
theorem iter_trace_depths (score : Game → FScore) (clock : Nat → Int)
    (thr : Int) (isMM quiessant : Bool) (g : Game) :
    ∀ (ds : List Nat) (window : List (FScore × Option Move))
      (best : Option FScore × Option Move) (t : Nat),
      (iterLoopT score clock thr isMM quiessant g ds window best t).trace.map
          (fun r => r.1) =
        ds.take
          (iterLoopT score clock thr isMM quiessant g ds window best t).trace.length := by
  intro ds
  induction ds with
  | nil => intro window best t; rfl
  | cons d rest ih =>
    intro window best t
    cases hds : dosearchT score clock thr isMM g d t with
    | error e =>
      have hstep : iterLoopT score clock thr isMM quiessant g (d :: rest)
          window best t = ⟨best, [], some d⟩ := by
        rw [iterLoopT_cons, hds]
      rw [hstep]
      rfl
    | ok v =>
      obtain ⟨⟨s, mo⟩, t'⟩ := v
      have hstep : iterLoopT score clock thr isMM quiessant g (d :: rest)
          window best t =
          (if convStop quiessant (push3 window (s, mo)) s mo then
            ⟨(some s, mo), [(d, s, mo)], none⟩
          else if clock t' < thr then ⟨(some s, mo), [(d, s, mo)], none⟩
          else
            ⟨(iterLoopT score clock thr isMM quiessant g rest
                (push3 window (s, mo)) (some s, mo) (t' + 1)).final,
              (d, s, mo) ::
                (iterLoopT score clock thr isMM quiessant g rest
                  (push3 window (s, mo)) (some s, mo) (t' + 1)).trace,
              (iterLoopT score clock thr isMM quiessant g rest
                (push3 window (s, mo)) (some s, mo) (t' + 1)).aborted⟩) := by
        rw [iterLoopT_cons, hds]
      by_cases h1 : convStop quiessant (push3 window (s, mo)) s mo = true
      · rw [if_pos h1] at hstep
        rw [hstep]
        rfl
      · rw [if_neg h1] at hstep
        by_cases h2 : clock t' < thr
        · rw [if_pos h2] at hstep
          rw [hstep]
          rfl
        · rw [if_neg h2] at hstep
          rw [hstep]
          simp only [List.map_cons, List.length_cons, List.take_succ_cons]
          rw [ih (push3 window (s, mo)) (some s, mo) (t' + 1)]

/-- If the loop was aborted by a `Timeout` at depth `d0`, then `d0` is the
next depth after those recorded in the trace. -/
theorem iter_aborted_next (score : Game → FScore) (clock : Nat → Int)
    (thr : Int) (isMM quiessant : Bool) (g : Game) :
    ∀ (ds : List Nat) (window : List (FScore × Option Move))
      (best : Option FScore × Option Move) (t : Nat) (d0 : Nat),
      (iterLoopT score clock thr isMM quiessant g ds window best t).aborted =
          some d0 →
      ds[(iterLoopT score clock thr isMM quiessant g ds window best t).trace.length]? =
        some d0 := by
  intro ds
  induction ds with
  | nil =>
    intro window best t d0 h
    exact Option.noConfusion h
  | cons d rest ih =>
    intro window best t d0 h
    cases hds : dosearchT score clock thr isMM g d t with
    | error e =>
      have hstep : iterLoopT score clock thr isMM quiessant g (d :: rest)
          window best t = ⟨best, [], some d⟩ := by
        rw [iterLoopT_cons, hds]
      rw [hstep] at h ⊢
      have h2 : (some d : Option Nat) = some d0 := h
      have h3 := Option.some.inj h2
      subst h3
      simp
    | ok v =>
      obtain ⟨⟨s, mo⟩, t'⟩ := v
      have hstep : iterLoopT score clock thr isMM quiessant g (d :: rest)
          window best t =
          (if convStop quiessant (push3 window (s, mo)) s mo then
            ⟨(some s, mo), [(d, s, mo)], none⟩
          else if clock t' < thr then ⟨(some s, mo), [(d, s, mo)], none⟩
          else
            ⟨(iterLoopT score clock thr isMM quiessant g rest
                (push3 window (s, mo)) (some s, mo) (t' + 1)).final,
              (d, s, mo) ::
                (iterLoopT score clock thr isMM quiessant g rest
                  (push3 window (s, mo)) (some s, mo) (t' + 1)).trace,
              (iterLoopT score clock thr isMM quiessant g rest
                (push3 window (s, mo)) (some s, mo) (t' + 1)).aborted⟩) := by
        rw [iterLoopT_cons, hds]
      by_cases h1 : convStop quiessant (push3 window (s, mo)) s mo = true
      · rw [if_pos h1] at hstep
        rw [hstep] at h
        exact Option.noConfusion h
      · rw [if_neg h1] at hstep
        by_cases h2 : clock t' < thr
        · rw [if_pos h2] at hstep
          rw [hstep] at h
          exact Option.noConfusion h
        · rw [if_neg h2] at hstep
          rw [hstep] at h ⊢
          simp only [List.length_cons, List.getElem?_cons_succ]
          exact ih (push3 window (s, mo)) (some s, mo) (t' + 1) d0 h

/-- Without convergence stopping, with a clock that never drops below the
threshold and with no search returning a forced win/loss score, the loop
completes every depth in the list and is not aborted. -/
theorem iter_noStop (score : Game → FScore) (clock : Nat → Int) (thr : Int)
    (isMM : Bool) (g : Game) (hclock : ∀ u, ¬ clock u < thr) :
    ∀ (ds : List Nat) (window : List (FScore × Option Move))
      (best : Option FScore × Option Move) (t : Nat),
      (∀ d ∈ ds, (dosearch score isMM g d).1 ≠ ninf ∧
        (dosearch score isMM g d).1 ≠ pinf) →
      (iterLoopT score clock thr isMM false g ds window best t).trace.length =
          ds.length ∧
      (iterLoopT score clock thr isMM false g ds window best t).aborted =
          none := by
  intro ds
  induction ds with
  | nil => intro window best t _; exact ⟨rfl, rfl⟩
  | cons d rest ih =>
    intro window best t hfin
    obtain ⟨r, t', hds⟩ := dosearchT_progress score clock thr hclock isMM g d t
    obtain ⟨s, mo⟩ := r
    have hr : (s, mo) = dosearch score isMM g d :=
      dosearchT_ok score clock thr isMM g d t (s, mo) t' hds
    have hs : s ≠ ninf ∧ s ≠ pinf := by
      have h3 := hfin d (List.mem_cons_self _ _)
      rw [← hr] at h3
      exact h3
    have h1 : ¬ (convStop false (push3 window (s, mo)) s mo = true) := by
      simp only [convStop, Bool.false_eq_true, if_false, Bool.or_eq_true,
        beq_iff_eq]
      rintro (h4 | h4)
      · exact hs.1 h4
      · exact hs.2 h4
    have hstep : iterLoopT score clock thr isMM false g (d :: rest)
        window best t =
        (if convStop false (push3 window (s, mo)) s mo then
          ⟨(some s, mo), [(d, s, mo)], none⟩
        else if clock t' < thr then ⟨(some s, mo), [(d, s, mo)], none⟩
        else
          ⟨(iterLoopT score clock thr isMM false g rest
              (push3 window (s, mo)) (some s, mo) (t' + 1)).final,
            (d, s, mo) ::
              (iterLoopT score clock thr isMM false g rest
                (push3 window (s, mo)) (some s, mo) (t' + 1)).trace,
            (iterLoopT score clock thr isMM false g rest
              (push3 window (s, mo)) (some s, mo) (t' + 1)).aborted⟩) := by
      rw [iterLoopT_cons, hds]
    rw [if_neg h1, if_neg (hclock t')] at hstep
    have ihh := ih (push3 window (s, mo)) (some s, mo) (t' + 1)
      (fun d2 hd2 => hfin d2 (List.mem_cons_of_mem _ hd2))
    rw [hstep]
    refine ⟨?_, ihh.2⟩
    simp only [List.length_cons]
    rw [ihh.1]

/-- With convergence stopping enabled, as soon as three consecutive
completed depths agree on the move the loop stops: the trace never strictly
extends three consecutive agreeing results, and such a stop is not an
abort.  The two auxiliary clauses track a deque that already ends in one or
two results agreeing with the head of the remaining trace. -/
theorem iter_conv (score : Game → FScore) (clock : Nat → Int) (thr : Int)
    (isMM : Bool) (g : Game) :
    ∀ (ds : List Nat) (window : List (FScore × Option Move))
      (best : Option FScore × Option Move) (t : Nat),
      window.length ≤ 3 →
      ((∀ u a b c v,
          (iterLoopT score clock thr isMM true g ds window best t).trace =
            u ++ a :: b :: c :: v →
          a.2.2 = b.2.2 → b.2.2 = c.2.2 →
          v = [] ∧
            (iterLoopT score clock thr isMM true g ds window best t).aborted =
              none) ∧
       (∀ w2 p q a v, window = w2 ++ [p, q] →
          (iterLoopT score clock thr isMM true g ds window best t).trace =
            a :: v →
          p.2 = q.2 → q.2 = a.2.2 →
          v = [] ∧
            (iterLoopT score clock thr isMM true g ds window best t).aborted =
              none) ∧
       (∀ w2 q a b v, window = w2 ++ [q] →
          (iterLoopT score clock thr isMM true g ds window best t).trace =
            a :: b :: v →
          q.2 = a.2.2 → a.2.2 = b.2.2 →
          v = [] ∧
            (iterLoopT score clock thr isMM true g ds window best t).aborted =
              none)) := by
  intro ds
  induction ds with
  | nil =>
    intro window best t hwin
    refine ⟨?_, ?_, ?_⟩
    · intro u a b c v hT hab hbc
      have h0 : ([] : List (Nat × FScore × Option Move)) =
          u ++ a :: b :: c :: v := hT
      cases u
      · exact List.noConfusion h0
      · exact List.noConfusion h0
    · intro w2 p q a v hW hT hpq hqa
      have h0 : ([] : List (Nat × FScore × Option Move)) = a :: v := hT
      exact List.noConfusion h0
    · intro w2 q a b v hW hT hqa hab
      have h0 : ([] : List (Nat × FScore × Option Move)) = a :: b :: v := hT
      exact List.noConfusion h0
  | cons d rest ih =>
    intro window best t hwin
    cases hds : dosearchT score clock thr isMM g d t with
    | error e =>
      have hstep : iterLoopT score clock thr isMM true g (d :: rest)
          window best t = ⟨best, [], some d⟩ := by
        rw [iterLoopT_cons, hds]
      refine ⟨?_, ?_, ?_⟩
      · intro u a b c v hT hab hbc
        rw [hstep] at hT
        have h0 : ([] : List (Nat × FScore × Option Move)) =
            u ++ a :: b :: c :: v := hT
        cases u
        · exact List.noConfusion h0
        · exact List.noConfusion h0
      · intro w2 p q a v hW hT hpq hqa
        rw [hstep] at hT
        have h0 : ([] : List (Nat × FScore × Option Move)) = a :: v := hT
        exact List.noConfusion h0
      · intro w2 q a b v hW hT hqa hab
        rw [hstep] at hT
        have h0 : ([] : List (Nat × FScore × Option Move)) = a :: b :: v := hT
        exact List.noConfusion h0
    | ok v0 =>
      obtain ⟨⟨s, mo⟩, t'⟩ := v0
      have hstep : iterLoopT score clock thr isMM true g (d :: rest)
          window best t =
          (if convStop true (push3 window (s, mo)) s mo then
            ⟨(some s, mo), [(d, s, mo)], none⟩
          else if clock t' < thr then ⟨(some s, mo), [(d, s, mo)], none⟩
          else
            ⟨(iterLoopT score clock thr isMM true g rest
                (push3 window (s, mo)) (some s, mo) (t' + 1)).final,
              (d, s, mo) ::
                (iterLoopT score clock thr isMM true g rest
                  (push3 window (s, mo)) (some s, mo) (t' + 1)).trace,
              (iterLoopT score clock thr isMM true g rest
                (push3 window (s, mo)) (some s, mo) (t' + 1)).aborted⟩) := by
        rw [iterLoopT_cons, hds]
      by_cases h1 : convStop true (push3 window (s, mo)) s mo = true
      · rw [if_pos h1] at hstep
        refine ⟨?_, ?_, ?_⟩
        · intro u a b c v hT hab hbc
          rw [hstep] at hT
          exfalso
          have h0 : [(d, s, mo)] = u ++ a :: b :: c :: v := hT
          have hlen := congrArg List.length h0
          simp only [List.length_cons, List.length_nil, List.length_append]
            at hlen
          omega
        · intro w2 p q a v hW hT hpq hqa
          rw [hstep] at hT ⊢
          have h0 : [(d, s, mo)] = a :: v := hT
          injection h0 with h0a h0b
          exact ⟨h0b.symm, rfl⟩
        · intro w2 q a b v hW hT hqa hab
          rw [hstep] at hT
          have h0 : [(d, s, mo)] = a :: b :: v := hT
          injection h0 with h0a h0b
          exact List.noConfusion h0b
      · rw [if_neg h1] at hstep
        by_cases h2 : clock t' < thr
        · rw [if_pos h2] at hstep
          refine ⟨?_, ?_, ?_⟩
          · intro u a b c v hT hab hbc
            rw [hstep] at hT
            exfalso
            have h0 : [(d, s, mo)] = u ++ a :: b :: c :: v := hT
            have hlen := congrArg List.length h0
            simp only [List.length_cons, List.length_nil, List.length_append]
              at hlen
            omega
          · intro w2 p q a v hW hT hpq hqa
            rw [hstep] at hT ⊢
            have h0 : [(d, s, mo)] = a :: v := hT
            injection h0 with h0a h0b
            exact ⟨h0b.symm, rfl⟩
          · intro w2 q a b v hW hT hqa hab
            rw [hstep] at hT
            have h0 : [(d, s, mo)] = a :: b :: v := hT
            injection h0 with h0a h0b
            exact List.noConfusion h0b
        · rw [if_neg h2] at hstep
          have ihh := ih (push3 window (s, mo)) (some s, mo) (t' + 1)
            (push3_length_le window (s, mo) hwin)
          refine ⟨?_, ?_, ?_⟩
          · intro u a b c v hT hab hbc
            rw [hstep] at hT ⊢
            cases u with
            | nil =>
              have h0 : (d, s, mo) ::
                  (iterLoopT score clock thr isMM true g rest
                    (push3 window (s, mo)) (some s, mo) (t' + 1)).trace =
                  a :: b :: c :: v := hT
              injection h0 with hA hB
              obtain ⟨w0, hw0⟩ := push3_ends window (s, mo)
              rw [← hA] at hab
              exact ihh.2.2 w0 (s, mo) b c v hw0 hB hab hbc
            | cons e0 u' =>
              have h0 : (d, s, mo) ::
                  (iterLoopT score clock thr isMM true g rest
                    (push3 window (s, mo)) (some s, mo) (t' + 1)).trace =
                  e0 :: (u' ++ a :: b :: c :: v) := hT
              injection h0 with hA hB
              exact ihh.1 u' a b c v hB hab hbc
          · intro w2 p q a v hW hT hpq hqa
            rw [hstep] at hT ⊢
            exfalso
            apply h1
            have h0 : (d, s, mo) ::
                (iterLoopT score clock thr isMM true g rest
                  (push3 window (s, mo)) (some s, mo) (t' + 1)).trace =
                a :: v := hT
            injection h0 with hA hB
            have hq' : q.2 = mo := by rw [hqa, ← hA]
            have hp' : p.2 = mo := by rw [hpq, hq']
            rw [hW]
            exact convStop_fires w2 p q s mo
              (by rw [← hW]; exact hwin) hp' hq'
          · intro w2 q a b v hW hT hqa hab
            rw [hstep] at hT ⊢
            have h0 : (d, s, mo) ::
                (iterLoopT score clock thr isMM true g rest
                  (push3 window (s, mo)) (some s, mo) (t' + 1)).trace =
                a :: b :: v := hT
            injection h0 with hA hB
            obtain ⟨w3, hw3⟩ := push3_ends2 w2 q (s, mo)
            have hw3' : push3 window (s, mo) = w3 ++ [q, (s, mo)] := by
              rw [hW]; exact hw3
            have hqmo : q.2 = mo := by rw [hqa, ← hA]
            have hmob : (s, mo).2 = b.2.2 := by rw [← hab, ← hA]
            exact ihh.2.1 w3 q (s, mo) b v hw3' hB hqmo hmob

/-- C2 (amended): with a strictly positive `search_depth`, a random choice
that picks from its list, and a board whose legal-move list does not
contain the `(-1, -1)` sentinel: whenever the root has at least one legal
move, `get_move` returns one of the root's legal moves; the sentinel is
returned only if the root had no legal moves; and with no legal moves the
result is the sentinel or Python `None` (the latter when the very first
search times out before completing, leaving the pre-seeded `None`). -/
theorem claim_C2 (score : Game → FScore) (clock : Nat → Int) (thr : Int)
    (isMM iterative quiessant : Bool) (e : Nat) (choice : List Move → Move)
    (g : Game)
    (hchoice : ∀ l : List Move, l ≠ [] → choice l ∈ l)
    (hnm : noMove ∉ g.legalMoves) :
    (g.legalMoves ≠ [] →
      ∃ m, get_move score clock thr isMM iterative quiessant (e + 1) choice g =
          some m ∧ m ∈ g.legalMoves) ∧
    (get_move score clock thr isMM iterative quiessant (e + 1) choice g =
        some noMove → g.legalMoves = []) ∧
    (g.legalMoves = [] →
      get_move score clock thr isMM iterative quiessant (e + 1) choice g =
          none ∨
        get_move score clock thr isMM iterative quiessant (e + 1) choice g =
          some noMove) := by
  have hQmain : g.legalMoves ≠ [] →
      ∃ m, get_move score clock thr isMM iterative quiessant (e + 1) choice g =
        some m ∧ m ∈ g.legalMoves := by
    intro hne
    have hch : g.children ≠ [] := by
      intro hc
      apply hne
      show g.children.map Prod.fst = []
      rw [hc]
      rfl
    have hseed : (if 0 < g.legalMoves.length then some (choice g.legalMoves)
        else none) = some (choice g.legalMoves) := by
      rw [if_pos (List.length_pos.mpr hne)]
    cases iterative with
    | true =>
      show ∃ m,
        (gmRun score clock thr isMM quiessant (e + 1) choice g).final.2 =
          some m ∧ m ∈ g.legalMoves
      apply iter_final_prop score clock thr isMM quiessant g
        (fun om => ∃ m, om = some m ∧ m ∈ g.legalMoves)
        (List.range' (e + 1) (25 - (e + 1))) []
        (none, if 0 < g.legalMoves.length then some (choice g.legalMoves)
          else none) 0
      · intro d hd t0 r t1 hok
        have hd1 : e + 1 ≤ d := (List.mem_range'_1.mp hd).1
        obtain ⟨e2, rfl⟩ : ∃ e2, d = e2 + 1 := ⟨d - 1, by omega⟩
        have hr := dosearchT_ok score clock thr isMM g (e2 + 1) t0 r t1 hok
        obtain ⟨m, hm1, hm2⟩ := dosearch_move_legal score isMM g e2 hch
        exact ⟨m, by rw [hr]; exact hm1, hm2⟩
      · show ∃ m, (if 0 < g.legalMoves.length then some (choice g.legalMoves)
          else none) = some m ∧ m ∈ g.legalMoves
        rw [hseed]
        exact ⟨choice g.legalMoves, rfl, hchoice _ hne⟩
    | false =>
      cases hds : dosearchT score clock thr isMM g (e + 1) 0 with
      | ok v =>
        obtain ⟨r, t1⟩ := v
        have hgm : get_move score clock thr isMM false quiessant (e + 1)
            choice g = r.2 := by
          show (match dosearchT score clock thr isMM g (e + 1) 0 with
            | .ok (r, _) => r.2
            | .error _ =>
              if 0 < g.legalMoves.length then some (choice g.legalMoves)
              else none) = r.2
          rw [hds]
        have hr := dosearchT_ok score clock thr isMM g (e + 1) 0 r t1 hds
        obtain ⟨m, hm1, hm2⟩ := dosearch_move_legal score isMM g e hch
        exact ⟨m, by rw [hgm, hr]; exact hm1, hm2⟩
      | error e0 =>
        have hgm : get_move score clock thr isMM false quiessant (e + 1)
            choice g =
            (if 0 < g.legalMoves.length then some (choice g.legalMoves)
              else none) := by
          show (match dosearchT score clock thr isMM g (e + 1) 0 with
            | .ok (r, _) => r.2
            | .error _ =>
              if 0 < g.legalMoves.length then some (choice g.legalMoves)
              else none) = _
          rw [hds]
        rw [hgm, hseed]
        exact ⟨choice g.legalMoves, rfl, hchoice _ hne⟩
  refine ⟨hQmain, ?_, ?_⟩
  · intro hs
    by_contra hne2
    obtain ⟨m, hm1, hm2⟩ := hQmain hne2
    rw [hs] at hm1
    have h4 := Option.some.inj hm1
    subst h4
    exact hnm hm2
  · intro hs
    have hch : g.children = [] := by
      cases hg : g.children with
      | nil => rfl
      | cons c cs =>
        exfalso
        have h4 : g.children.map Prod.fst = [] := hs
        rw [hg] at h4
        exact List.noConfusion h4
    have hlen : ¬ 0 < g.legalMoves.length := by rw [hs]; decide
    have hseed0 : (if 0 < g.legalMoves.length then some (choice g.legalMoves)
        else none) = none := by rw [if_neg hlen]
    cases iterative with
    | true =>
      have hQ := iter_final_prop score clock thr isMM quiessant g
        (fun om => om = none ∨ om = some noMove)
        (List.range' (e + 1) (25 - (e + 1))) []
        (none, if 0 < g.legalMoves.length then some (choice g.legalMoves)
          else none) 0
        (fun d hd t0 r t1 hok => by
          right
          have hr := dosearchT_ok score clock thr isMM g d t0 r t1 hok
          rw [hr, dosearch_deadend score isMM g d hch])
        (Or.inl hseed0)
      exact hQ
    | false =>
      cases hds : dosearchT score clock thr isMM g (e + 1) 0 with
      | ok v =>
        obtain ⟨r, t1⟩ := v
        right
        have hgm : get_move score clock thr isMM false quiessant (e + 1)
            choice g = r.2 := by
          show (match dosearchT score clock thr isMM g (e + 1) 0 with
            | .ok (r, _) => r.2
            | .error _ =>
              if 0 < g.legalMoves.length then some (choice g.legalMoves)
              else none) = r.2
          rw [hds]
        have hr := dosearchT_ok score clock thr isMM g (e + 1) 0 r t1 hds
        rw [hgm, hr, dosearch_deadend score isMM g (e + 1) hch]
      | error e0 =>
        left
        have hgm : get_move score clock thr isMM false quiessant (e + 1)
            choice g =
            (if 0 < g.legalMoves.length then some (choice g.legalMoves)
              else none) := by
          show (match dosearchT score clock thr isMM g (e + 1) 0 with
            | .ok (r, _) => r.2
            | .error _ =>
              if 0 < g.legalMoves.length then some (choice g.legalMoves)
              else none) = _
          rw [hds]
        rw [hgm, hseed0]

/-- Witness for C2 on a two-move state with an always-safe clock. -/
theorem claim_C2_witness :
    wg1.legalMoves ≠ [] ∧
    ∃ m, get_move wscore (fun _ => 100) 1 true true false 1
        (fun l => l.headD noMove) wg1 = some m ∧ m ∈ wg1.legalMoves :=
  ⟨by decide,
    (claim_C2 wscore (fun _ => 100) 1 true true false 0
        (fun l => l.headD noMove) wg1
        (fun l hl => by
          cases l with
          | nil => exact absurd rfl hl
          | cons a l2 => exact List.mem_cons_self a l2)
        (by decide)).1 (by decide)⟩

/-- Counterexample to C2 as stated: at a root with no legal moves, when the
clock is already past the deadline at the first poll, the pre-seeded move
is Python `None` and the first search raises `Timeout` before committing
anything, so `get_move` returns `None` — not the `(-1, -1)` sentinel the
claim's "if and only if" direction requires. -/
theorem claim_C2_counterexample :
    wleaf.legalMoves = [] ∧
    get_move wscore (fun _ => 0) 1 true true false 3
      (fun l => l.headD noMove) wleaf = none ∧
    ¬ get_move wscore (fun _ => 0) 1 true true false 3
      (fun l => l.headD noMove) wleaf = some noMove :=
  ⟨rfl, rfl, by decide⟩

/-- C3: both searches check the deadline first and raise `Timeout` (the
`Except.error` outcome) whenever the clock is below the threshold at entry,
at every depth, state and window; and in iterative mode `get_move` absorbs
the exception at the driver boundary, returning the move of the last fully
completed depth, or the pre-seeded random legal move (Python `None` when
there is none) if no depth completed. -/
theorem claim_C3 (score : Game → FScore) (clock : Nat → Int) (thr : Int) :
    (∀ (d : Nat) (g : Game) (mx : Bool) (t : Nat), clock t < thr →
      minimaxT score clock thr d g mx t = .error ()) ∧
    (∀ (d : Nat) (g : Game) (alpha beta : FScore) (mx : Bool) (t : Nat),
      clock t < thr →
      alphabetaT score clock thr d g alpha beta mx t = .error ()) ∧
    (∀ (isMM quiessant : Bool) (sd : Nat) (choice : List Move → Move)
      (g : Game),
      get_move score clock thr isMM true quiessant sd choice g =
        ((gmRun score clock thr isMM quiessant sd choice g).trace.map
          (fun r => r.2.2)).getLastD
          (if 0 < g.legalMoves.length then some (choice g.legalMoves)
            else none)) := by
  refine ⟨?_, ?_, ?_⟩
  · intro d g mx t h
    cases d
    · simp only [minimaxT]
      rw [if_pos h]
    · simp only [minimaxT]
      rw [if_pos h]
  · intro d g alpha beta mx t h
    cases d
    · simp only [alphabetaT]
      rw [if_pos h]
    · simp only [alphabetaT]
      rw [if_pos h]
  · intro isMM quiessant sd choice g
    exact iter_final_last score clock thr isMM quiessant g
      (List.range' sd (25 - sd)) []
      (none, if 0 < g.legalMoves.length then some (choice g.legalMoves)
        else none) 0

/-- Witness for C3 with a clock already past the deadline. -/
theorem claim_C3_witness :
    minimaxT wscore (fun _ => 0) 1 3 wg1 true 0 = .error () ∧
    alphabetaT wscore (fun _ => 0) 1 3 wg1 ninf pinf true 0 = .error () ∧
    get_move wscore (fun _ => 0) 1 true true false 3
        (fun l => l.headD noMove) wg1 =
      ((gmRun wscore (fun _ => 0) 1 true false 3
          (fun l => l.headD noMove) wg1).trace.map (fun r => r.2.2)).getLastD
        (if 0 < wg1.legalMoves.length
          then some ((fun l => l.headD noMove) wg1.legalMoves) else none) :=
  ⟨(claim_C3 wscore (fun _ => 0) 1).1 3 wg1 true 0 (by decide),
    (claim_C3 wscore (fun _ => 0) 1).2.1 3 wg1 ninf pinf true 0 (by decide),
    (claim_C3 wscore (fun _ => 0) 1).2.2 true false 3
      (fun l => l.headD noMove) wg1⟩

/-- C7: with convergence stopping enabled, the results deque never exceeds
3 entries, and whenever the completed-depth trace contains three
consecutive results that agree on the move — the scores are unconstrained —
those three are the last entries of the trace and the loop stopped there
without launching (not even to the point of a timeout) any deeper search. -/
theorem claim_C7 (score : Game → FScore) (clock : Nat → Int) (thr : Int)
    (isMM : Bool) (sd : Nat) (choice : List Move → Move) (g : Game) :
    (∀ (w : List (FScore × Option Move)) (x : FScore × Option Move),
      w.length ≤ 3 → (push3 w x).length ≤ 3) ∧
    (∀ u a b c v,
      (gmRun score clock thr isMM true sd choice g).trace =
        u ++ a :: b :: c :: v →
      a.2.2 = b.2.2 → b.2.2 = c.2.2 →
      v = [] ∧
        (gmRun score clock thr isMM true sd choice g).aborted = none) :=
  ⟨push3_length_le,
    (iter_conv score clock thr isMM g (List.range' sd (25 - sd)) []
      (none, if 0 < g.legalMoves.length then some (choice g.legalMoves)
        else none) 0 (by decide)).1⟩

/-- Witness for C7: a single-move state where depths 1, 2, 3 all pick the
same move, so the trace stops at exactly those three depths. -/
theorem claim_C7_witness :
    (gmRun wscore (fun _ => 100) 1 true true 1 (fun l => l.headD noMove)
        wgsingle).trace =
      [] ++ (1, fin 0, some (0, 0)) :: (2, fin 0, some (0, 0)) ::
        (3, fin 0, some (0, 0)) :: [] ∧
    (([] : List (Nat × FScore × Option Move)) = [] ∧
      (gmRun wscore (fun _ => 100) 1 true true 1 (fun l => l.headD noMove)
        wgsingle).aborted = none) :=
  ⟨rfl,
    (claim_C7 wscore (fun _ => 100) 1 true 1 (fun l => l.headD noMove)
        wgsingle).2 [] (1, fin 0, some (0, 0)) (2, fin 0, some (0, 0))
      (3, fin 0, some (0, 0)) [] rfl rfl rfl⟩

theorem range'_take :
    ∀ (n s k : Nat), k ≤ n → (List.range' s n).take k = List.range' s k := by
  intro n
  induction n with
  | zero =>
    intro s k h
    have hk : k = 0 := Nat.le_zero.mp h
    subst hk
    rfl
  | succ n ih =>
    intro s k h
    cases k with
    | zero => rfl
    | succ k2 =>
      rw [List.range'_succ, List.take_succ_cons,
        ih (s + 1) k2 (Nat.succ_le_succ_iff.mp h)]
      exact (List.range'_succ _ _ _).symm

/-- C8: in iterative-deepening mode the depths searched are consecutive
ascending integers starting at `search_depth`; when no stop condition can
fire (clock never below the threshold, convergence stopping disabled, no
search returns a forced win/loss score) the loop completes every depth from
`search_depth` up to the hard maximum 24 inclusive, with no abort; and each
depth's search is a single engine invocation from the root, maximizing,
with the configured method. -/
theorem claim_C8 (score : Game → FScore) (clock : Nat → Int) (thr : Int)
    (isMM quiessant : Bool) (sd : Nat) (choice : List Move → Move)
    (g : Game) (hsd : sd ≤ 24) :
    ((gmRun score clock thr isMM quiessant sd choice g).trace.map
        (fun r => r.1) =
      List.range' sd
        (gmRun score clock thr isMM quiessant sd choice g).trace.length) ∧
    ((∀ u, ¬ clock u < thr) →
      (∀ d, sd ≤ d → d ≤ 24 → (dosearch score isMM g d).1 ≠ ninf ∧
        (dosearch score isMM g d).1 ≠ pinf) →
      (gmRun score clock thr isMM false sd choice g).trace.map
          (fun r => r.1) =
        List.range' sd (25 - sd) ∧
      (gmRun score clock thr isMM false sd choice g).aborted = none) ∧
    (∀ d, dosearch score isMM g d =
      if isMM then minimax score d g true
      else alphabeta score d g ninf pinf true) := by
  refine ⟨?_, ?_, fun d => rfl⟩
  · have h0 := iter_trace_depths score clock thr isMM quiessant g
      (List.range' sd (25 - sd)) []
      (none, if 0 < g.legalMoves.length then some (choice g.legalMoves)
        else none) 0
    have hlen := congrArg List.length h0
    simp only [List.length_map, List.length_take, List.length_range'] at hlen
    have hle : (iterLoopT score clock thr isMM quiessant g
        (List.range' sd (25 - sd)) []
        (none, if 0 < g.legalMoves.length then some (choice g.legalMoves)
          else none) 0).trace.length ≤ 25 - sd := by omega
    show (iterLoopT score clock thr isMM quiessant g
        (List.range' sd (25 - sd)) []
        (none, if 0 < g.legalMoves.length then some (choice g.legalMoves)
          else none) 0).trace.map (fun r => r.1) =
      List.range' sd
        (iterLoopT score clock thr isMM quiessant g
          (List.range' sd (25 - sd)) []
          (none, if 0 < g.legalMoves.length then some (choice g.legalMoves)
            else none) 0).trace.length
    rw [h0, range'_take (25 - sd) sd _ hle]
  · intro hclock hfin
    have hfin2 : ∀ d ∈ List.range' sd (25 - sd),
        (dosearch score isMM g d).1 ≠ ninf ∧
        (dosearch score isMM g d).1 ≠ pinf := by
      intro d hd
      have h1 := List.mem_range'_1.mp hd
      exact hfin d h1.1 (by omega)
    have h2 := iter_noStop score clock thr isMM g hclock
      (List.range' sd (25 - sd)) []
      (none, if 0 < g.legalMoves.length then some (choice g.legalMoves)
        else none) 0 hfin2
    refine ⟨?_, h2.2⟩
    have h0 := iter_trace_depths score clock thr isMM false g
      (List.range' sd (25 - sd)) []
      (none, if 0 < g.legalMoves.length then some (choice g.legalMoves)
        else none) 0
    show (iterLoopT score clock thr isMM false g
        (List.range' sd (25 - sd)) []
        (none, if 0 < g.legalMoves.length then some (choice g.legalMoves)
          else none) 0).trace.map (fun r => r.1) = _
    rw [h0, h2.1, List.take_length]

/-- Witness for C8: from depth 23 both remaining depths complete, so the
trace covers exactly depths 23 and 24. -/
theorem claim_C8_witness :
    (gmRun wscore (fun _ => 100) 1 true false 23 (fun l => l.headD noMove)
        wgsingle).trace.map (fun r => r.1) = List.range' 23 (25 - 23) ∧
    (gmRun wscore (fun _ => 100) 1 true false 23 (fun l => l.headD noMove)
        wgsingle).aborted = none :=
  (claim_C8 wscore (fun _ => 100) 1 true false 23 (fun l => l.headD noMove)
      wgsingle (by decide)).2.1 (fun u => by decide)
    (fun d h1 h2 => by
      have h3 : d = 23 ∨ d = 24 := by omega
      rcases h3 with rfl | rfl
      · exact ⟨by decide, by decide⟩
      · exact ⟨by decide, by decide⟩)

end Iso
